import Mathlib

/-!
Verification of the chrono-merkle tree engine.

Shallow embedding of the core of the `chrono-merkle` crate:
the node model (`src/node.rs`), the sparse timestamp index
(`src/sparse_index.rs`), input validation (`src/validation.rs`), the
bottom-up rebuild (`src/rebuild.rs`), insert and the query operations
(`src/operations.rs`), proof generation and verification (`src/proofs.rs`,
`src/proof.rs`), and the delta / rollback engine (`src/delta.rs`).

Modelling conventions:
* Digests (the Rust type parameter `H`, instantiated at `[u8; 32]` in
  practice) are byte lists `List Nat`; the engine only uses equality and
  the byte view, both of which coincide on `List Nat`.
* The hash primitive is a parameter `Hasher` (a function from byte lists
  to byte lists); `hash_pair` concatenates and hashes, exactly as the
  default implementation of `HashFunction::hash_pair` does.
* Rust `u64` timestamps and `usize` indices are `Nat`.  The only
  subtraction on the relevant paths is `current_time.saturating_sub(...)`,
  which is Lean's truncated `Nat` subtraction.
* `&mut self` methods that can fail return `Tree × Option ChronoMerkleError`;
  the error component is `some e` exactly when the Rust method returns
  `Err(e)`, in which case the returned tree is the unchanged receiver
  (the Rust code validates before mutating).
* The wall clock (`security::current_timestamp`) is an explicit `now`
  parameter.
* The `SecurityLogger` calls are no-ops for state (the default logger is
  a no-op and the result of `log_event` is discarded with `let _ =`), so
  they are omitted.
* `Node.children` is always the empty vector on every code path the
  claims touch (`Node::leaf`, `Node::delta`, `Node::internal` all create
  `children: Vec::new()`), so `Node` is modelled by its `node_type`.
-/

namespace ChronoMerkle

/-- A digest: the byte view of the Rust hash output `H`. -/
abbrev Digest := List Nat

/-- The hash primitive of `src/hash.rs` (`HashFunction::hash`). -/
structure Hasher where
  hash : Digest → Digest

/-- `HashFunction::hash_pair`: hash of the concatenation of the two
fixed-width digests (the default trait implementation). -/
def Hasher.hash_pair (h : Hasher) (left right : Digest) : Digest :=
  h.hash (left ++ right)

/-- `security::constant_time_eq`: length check, then an accumulated OR of
byte XORs compared against zero. -/
def constant_time_eq (a b : Digest) : Bool :=
  if a.length ≠ b.length then
    false
  else
    ((a.zip b).foldl (fun result xy => result ||| (xy.1 ^^^ xy.2)) 0) == 0

/-- The error enum of `src/error.rs` (the variants reachable from the
embedded operations). -/
inductive ChronoMerkleError where
  | IndexOutOfBounds (index : Nat) (leaf_count : Nat)
  | InvalidProof (message : String)
  | ProofVerificationFailed (reason : String)
  | InvalidTimestamp (timestamp : Nat)
  | EmptyTree
  | InvalidNodeType (operation : String)
  | ValidationFailed (reason : String)
  | InvalidConfiguration (parameter : String) (reason : String)
  deriving DecidableEq, Repr

/-- `NodeType` of `src/node.rs`. -/
inductive NodeType where
  | leaf (hash : Digest) (timestamp : Nat) (data : Option (List Nat))
  | delta (delta_hash : Digest) (base_hash : Digest) (timestamp : Nat)
  | internal (hash : Digest) (left_hash : Digest) (right_hash : Digest)
      (timestamp_range : Nat × Nat)
  deriving DecidableEq, Repr

/-- A node of the tree.  `children` is `Vec::new()` on every constructor
used by the embedded code, so the node is its `node_type`. -/
abbrev Node := NodeType

/-- `Node::leaf`. -/
def Node.leaf (hash : Digest) (timestamp : Nat) (data : Option (List Nat)) : Node :=
  NodeType.leaf hash timestamp data

/-- `Node::delta`. -/
def Node.delta (delta_hash base_hash : Digest) (timestamp : Nat) : Node :=
  NodeType.delta delta_hash base_hash timestamp

/-- `Node::internal`. -/
def Node.internal (hash left_hash right_hash : Digest)
    (timestamp_range : Nat × Nat) : Node :=
  NodeType.internal hash left_hash right_hash timestamp_range

/-- `Node::hash`. -/
def Node.hash : Node → Digest
  | NodeType.leaf h _ _ => h
  | NodeType.delta dh _ _ => dh
  | NodeType.internal h _ _ _ => h

/-- `Node::timestamp_info`. -/
def Node.timestamp_info : Node → Nat × Option Nat
  | NodeType.leaf _ t _ => (t, none)
  | NodeType.delta _ _ t => (t, none)
  | NodeType.internal _ _ _ r => (r.1, some r.2)

/-- `Node::is_leaf`. -/
def Node.is_leaf : Node → Bool
  | NodeType.leaf _ _ _ => true
  | _ => false

/-- `Node::is_delta`. -/
def Node.is_delta : Node → Bool
  | NodeType.delta _ _ _ => true
  | _ => false

/-- `Node::is_internal`. -/
def Node.is_internal : Node → Bool
  | NodeType.internal _ _ _ _ => true
  | _ => false

/-- Placeholder node used to express the panicking Rust index `nodes[i]`
as a total function; every use is under an in-bounds invariant. -/
def defaultNode : Node := NodeType.leaf [] 0 none

/-- Sorted-insert into the association list modelling `BTreeMap<u64, usize>`:
overwrite on an equal key, keep keys strictly increasing. -/
def mapInsert : List (Nat × Nat) → Nat → Nat → List (Nat × Nat)
  | [], t, v => [(t, v)]
  | (k, w) :: rest, t, v =>
    if t < k then (t, v) :: (k, w) :: rest
    else if t = k then (t, v) :: rest
    else (k, w) :: mapInsert rest t v

/-- `BTreeMap::get` on the association list. -/
def mapFind : List (Nat × Nat) → Nat → Option Nat
  | [], _ => none
  | (k, w) :: rest, t => if k = t then some w else mapFind rest t

/-- `SparseIndex` of `src/sparse_index.rs`: the ordered map plus the
sparsity factor. -/
structure SparseIndex where
  index : List (Nat × Nat)
  sparsity : Nat
  deriving DecidableEq, Repr

/-- `SparseIndex::new` (zero sparsity is coerced to 1). -/
def SparseIndex.new (sparsity : Nat) : SparseIndex :=
  { index := [], sparsity := if sparsity = 0 then 1 else sparsity }

/-- `SparseIndex::insert`: only timestamps divisible by the sparsity are
admitted. -/
def SparseIndex.insert (si : SparseIndex) (timestamp leaf_index : Nat) : SparseIndex :=
  if timestamp % si.sparsity = 0 then
    { si with index := mapInsert si.index timestamp leaf_index }
  else si

/-- `SparseIndex::find_exact`. -/
def SparseIndex.find_exact (si : SparseIndex) (timestamp : Nat) : Option Nat :=
  mapFind si.index timestamp

/-- `TreeConfig` of `src/config.rs`. -/
structure TreeConfig where
  sparse_index_sparsity : Nat
  enable_deltas : Bool
  incremental_updates : Bool
  max_depth : Nat
  parallel_construction : Bool
  deriving DecidableEq, Repr

/-- `TreeConfig::default`. -/
def TreeConfig.default : TreeConfig :=
  { sparse_index_sparsity := 1
    enable_deltas := true
    incremental_updates := true
    max_depth := 32
    parallel_construction := false }

/-- `TreeConfig::validate` of `src/config.rs`. -/
def TreeConfig.validate (cfg : TreeConfig) : Except ChronoMerkleError Unit :=
  if cfg.sparse_index_sparsity = 0 then
    .error (.InvalidConfiguration "sparse_index_sparsity"
      "Sparsity factor must be greater than 0")
  else if cfg.max_depth = 0 ∨ cfg.max_depth > 64 then
    .error (.InvalidConfiguration "max_depth"
      "Maximum depth must be between 1 and 64")
  else
    .ok ()

/-- The mutable state of `ChronoMerkleTree` (`src/tree.rs`), without the
hasher (passed explicitly) and the logger (a no-op). -/
structure Tree where
  nodes : List Node
  leaf_count : Nat
  sparse_index : SparseIndex
  config : TreeConfig
  incremental_updates : Bool
  delta_chains : SparseIndex
  stored_deltas : List Node
  deriving DecidableEq, Repr

/-- The tree built by the constructors of `src/constructors.rs` before any
insert: empty node vector, fresh indices at the configured sparsity. -/
def newTree (cfg : TreeConfig) : Tree :=
  { nodes := []
    leaf_count := 0
    sparse_index := SparseIndex.new cfg.sparse_index_sparsity
    config := cfg
    incremental_updates := cfg.incremental_updates
    delta_chains := SparseIndex.new cfg.sparse_index_sparsity
    stored_deltas := [] }

/-- `ChronoMerkleTree::with_config` (`src/constructors.rs`): validate the
configuration, then build the empty tree. -/
def with_config (cfg : TreeConfig) : Except ChronoMerkleError Tree :=
  match cfg.validate with
  | .error e => .error e
  | .ok _ => .ok (newTree cfg)

/-- `ChronoMerkleTree::root` (`src/operations.rs`): hash of the last node. -/
def Tree.root (tr : Tree) : Option Digest :=
  tr.nodes.getLast?.map Node.hash

/-- `ChronoMerkleTree::get_leaf` (`src/operations.rs`). -/
def Tree.get_leaf (tr : Tree) (index : Nat) : Except ChronoMerkleError Node :=
  if index ≥ tr.leaf_count then
    .error (.IndexOutOfBounds index tr.leaf_count)
  else
    .ok (tr.nodes.getD index defaultNode)

/-- `ChronoMerkleTree::get_leaf_hash`. -/
def Tree.get_leaf_hash (tr : Tree) (index : Nat) : Except ChronoMerkleError Digest :=
  (tr.get_leaf index).map Node.hash

/-- `ChronoMerkleTree::get_leaf_timestamp`. -/
def Tree.get_leaf_timestamp (tr : Tree) (index : Nat) : Except ChronoMerkleError Nat :=
  (tr.get_leaf index).map (fun n => n.timestamp_info.1)

/-- `MAX_DATA_SIZE` of `src/validation.rs`: 1 MiB. -/
def MAX_DATA_SIZE : Nat := 1024 * 1024

/-- `ChronoMerkleTree::validate_insert_inputs` (`src/validation.rs`).
The duplicate-timestamp probe of the sparse index only emits a warning
event and never changes the result.  `now` is the wall clock
(`security::current_timestamp`); the lower bound uses `saturating_sub`,
which is `Nat` subtraction. -/
def Tree.validate_insert_inputs (tr : Tree) (data : List Nat) (timestamp : Nat)
    (now : Nat) : Except ChronoMerkleError Unit :=
  if data.length > MAX_DATA_SIZE then
    .error (.InvalidConfiguration "data"
      ("Data size " ++ toString data.length ++
        " exceeds maximum allowed size " ++ toString MAX_DATA_SIZE))
  else if data.isEmpty then
    .error (.InvalidConfiguration "data" "Empty data not allowed")
  else
    let one_year_future := now + 365 * 24 * 60 * 60
    let hundred_years_past := now - 100 * 365 * 24 * 60 * 60
    if timestamp > one_year_future then
      .error (.InvalidTimestamp timestamp)
    else if timestamp < hundred_years_past then
      .error (.InvalidTimestamp timestamp)
    else
      .ok ()

/-- The internal node the rebuild loop of `src/rebuild.rs` makes from two
children: combined digest `hash_pair(left, right)` and the merged
timestamp range. -/
def mkInternal (h : Hasher) (left_node right_node : Node) : Node :=
  let left_hash := left_node.hash
  let right_hash := right_node.hash
  let lts := left_node.timestamp_info
  let rts := right_node.timestamp_info
  let timestamp_range :=
    (min lts.1 rts.1, max (lts.2.getD lts.1) (rts.2.getD rts.1))
  Node.internal (h.hash_pair left_hash right_hash) left_hash right_hash
    timestamp_range

/-- One parent of the level `nodes[current_start ..< current_start + current_count]`,
exactly as the closure inside `rebuild_tree` computes it: the right child is
the node at `2*i + 1`, or a duplicate of the level's last node when that
index falls outside the level. -/
def parentAt (h : Hasher) (nodes : List Node) (current_start current_count i : Nat) : Node :=
  let left_idx := current_start + 2 * i
  let right_idx := current_start + 2 * i + 1
  let left_node := nodes.getD left_idx defaultNode
  let right_node :=
    if right_idx < current_start + current_count then
      nodes.getD right_idx defaultNode
    else
      nodes.getD (current_start + current_count - 1) defaultNode
  mkInternal h left_node right_node

/-- The `while current_count > 1` loop of `rebuild_tree`, rendered as a
fuel-bounded structural recursion so that it evaluates inside the kernel:
one fuel unit per loop iteration. -/
def buildLoopF (h : Hasher) : Nat → List Node → Nat → Nat → List Node
  | 0, nodes, _, _ => nodes
  | fuel + 1, nodes, current_start, current_count =>
    if current_count > 1 then
      let next_count := (current_count + 1) / 2
      let parent_nodes :=
        (List.range next_count).map (parentAt h nodes current_start current_count)
      buildLoopF h fuel (nodes ++ parent_nodes) (current_start + current_count)
        next_count
    else
      nodes

/-- The rebuild loop.  `current_count` fuel always suffices: the window
size strictly decreases (`(c + 1) / 2 ≤ c - 1` for `c ≥ 2`), so the loop
runs at most `current_count` times. -/
def buildLoop (h : Hasher) (nodes : List Node) (current_start current_count : Nat) :
    List Node :=
  buildLoopF h current_count nodes current_start current_count

/-- `ChronoMerkleTree::rebuild_tree` (`src/rebuild.rs`): truncate for zero
or one leaf, otherwise keep only the leaf nodes and rebuild every level
bottom-up. -/
def rebuild_tree (h : Hasher) (tr : Tree) : Tree :=
  if tr.leaf_count = 0 then
    { tr with nodes := tr.nodes.take tr.leaf_count }
  else if tr.leaf_count = 1 then
    { tr with nodes := tr.nodes.take 1 }
  else
    let current_leaves := tr.nodes.filter Node.is_leaf
    { tr with nodes := buildLoop h current_leaves 0 tr.leaf_count }

/-- `ChronoMerkleTree::rebuild_tree_parallel`: the Rayon variant computes
the same parent nodes as `rebuild_tree` (the parallel iterator only
changes the evaluation strategy), so it is the same function. -/
def rebuild_tree_parallel (h : Hasher) (tr : Tree) : Tree :=
  rebuild_tree h tr

/-- `ChronoMerkleTree::update_tree_incremental` (`src/rebuild.rs`):
"incremental updates fall back to full rebuild". -/
def update_tree_incremental (h : Hasher) (tr : Tree) : Tree :=
  if tr.config.parallel_construction then rebuild_tree_parallel h tr
  else rebuild_tree h tr

/-- Steps 3–5 of `ChronoMerkleTree::insert` (`src/operations.rs`): hash
the data, append the leaf, bump `leaf_count`, and record
`(timestamp, leaf_index)` in the sparse index, where
`leaf_index = leaf_count - 1` after the bump, i.e. the old `leaf_count`. -/
def pushLeaf (h : Hasher) (tr : Tree) (data : List Nat) (timestamp : Nat) : Tree :=
  let hash := h.hash data
  let leaf := Node.leaf hash timestamp (some data)
  { tr with
    nodes := tr.nodes ++ [leaf]
    leaf_count := tr.leaf_count + 1
    sparse_index := tr.sparse_index.insert timestamp tr.leaf_count }

/-- The delta-emission stage of `insert`: if deltas are enabled, the
pre-insert root existed (`old_root` was `Some`), and the root changed,
append one delta node committing `hash_pair(old, new)` and record its
position in the delta index.  The `self.root().unwrap()` of the source
cannot see `None` after a successful insert; the `none` arm mirrors the
unreachable panic as a no-op. -/
def delta_stage (h : Hasher) (timestamp : Nat) (old_root : Option Digest)
    (tr3 : Tree) : Tree :=
  if tr3.config.enable_deltas then
    match old_root with
    | some old_root_hash =>
      match tr3.root with
      | some new_root_hash =>
        if old_root_hash ≠ new_root_hash then
          let delta_hash := h.hash_pair old_root_hash new_root_hash
          let delta_node := Node.delta delta_hash old_root_hash timestamp
          { tr3 with
            stored_deltas := tr3.stored_deltas ++ [delta_node]
            delta_chains :=
              tr3.delta_chains.insert timestamp tr3.stored_deltas.length }
        else tr3
      | none => tr3
    | none => tr3
  else tr3

/-- `ChronoMerkleTree::insert` (`src/operations.rs`).  Returns the new
state and `none`, or the unchanged state and the validation error (the
Rust method early-returns before any mutation). -/
def Tree.insert (h : Hasher) (now : Nat) (tr : Tree) (data : List Nat)
    (timestamp : Nat) : Tree × Option ChronoMerkleError :=
  match tr.validate_insert_inputs data timestamp now with
  | .error e => (tr, some e)
  | .ok _ =>
    let old_root := tr.root
    let tr2 := pushLeaf h tr data timestamp
    let tr3 :=
      if tr2.incremental_updates then update_tree_incremental h tr2
      else if tr2.config.parallel_construction then rebuild_tree_parallel h tr2
      else rebuild_tree h tr2
    (delta_stage h timestamp old_root tr3, none)

/-- `ChronoMerkleTree::find_by_timestamp` (`src/operations.rs`): linear
scan of `nodes[..leaf_count]` keeping the indices of leaf nodes whose
timestamp matches exactly. -/
def Tree.find_by_timestamp (tr : Tree) (timestamp : Nat) : List Nat :=
  ((tr.nodes.take tr.leaf_count).enum).filterMap (fun p =>
    match p.2 with
    | NodeType.leaf _ ts _ => if ts = timestamp then some p.1 else none
    | _ => none)

/-- `ChronoMerkleTree::find_range` (`src/operations.rs`): linear scan of
`nodes[..leaf_count]` collecting leaf indices in the inclusive range,
then `indices.sort()`. -/
def Tree.find_range (tr : Tree) (start_ts end_ts : Nat) : List Nat :=
  let indices := ((tr.nodes.take tr.leaf_count).enum).filterMap (fun p =>
    match p.2 with
    | NodeType.leaf _ ts _ =>
      if start_ts ≤ ts ∧ ts ≤ end_ts then some p.1 else none
    | _ => none)
  indices.mergeSort (fun a b => a ≤ b)

/-- The fold that re-indexes a delta vector into a fresh delta-chain
index, shared by `rollback_to_timestamp` and `prune_deltas`. -/
def reindexDeltas (s : Nat) (deltas : List Node) : SparseIndex :=
  (deltas.enum).foldl (fun dc p =>
    match p.2 with
    | NodeType.delta _ _ ts => dc.insert ts p.1
    | _ => dc) (SparseIndex.new s)

/-- `ChronoMerkleTree::prune_deltas` (`src/operations.rs`): collect the
positions of deltas older than the cutoff, remove them back to front,
then re-index the remaining deltas. -/
def Tree.prune_deltas (tr : Tree) (keep_after_timestamp : Nat) : Tree :=
  let indices_to_remove := (tr.stored_deltas.enum).filterMap (fun p =>
    match p.2 with
    | NodeType.delta _ _ ts =>
      if ts < keep_after_timestamp then some p.1 else none
    | _ => none)
  let pruned := indices_to_remove.reverse.foldl List.eraseIdx tr.stored_deltas
  { tr with
    stored_deltas := pruned
    delta_chains := reindexDeltas tr.config.sparse_index_sparsity pruned }

/-- `ProofStep` of `src/proof.rs`. -/
inductive ProofStep where
  | left (sibling : Digest)
  | right (sibling : Digest)
  | delta (old_hash new_hash : Digest)
  deriving DecidableEq, Repr

/-- `ChronoProof` of `src/proof.rs`. -/
structure ChronoProof where
  leaf_index : Nat
  path : List ProofStep
  delta_chain : Option (List Digest)
  programmable_results : List Bool
  timestamp : Nat
  deriving DecidableEq, Repr

/-- `ChronoProof::new`. -/
def ChronoProof.new (leaf_index timestamp : Nat) : ChronoProof :=
  { leaf_index := leaf_index
    path := []
    delta_chain := none
    programmable_results := []
    timestamp := timestamp }

/-- One level-combine of `generate_proof` (`src/proofs.rs`): hash the
chunks of two, hashing an unpaired final element with itself. -/
def combineLevel (h : Hasher) : List Digest → List Digest
  | a :: b :: rest => h.hash_pair a b :: combineLevel h rest
  | [a] => [h.hash_pair a a]
  | [] => []

/-- Each combine halves the level size, rounding up. -/
theorem combineLevel_length (h : Hasher) :
    ∀ level : List Digest, (combineLevel h level).length = (level.length + 1) / 2
  | [] => by simp [combineLevel]
  | [_] => by simp [combineLevel]
  | _ :: _ :: rest => by
    simp [combineLevel, combineLevel_length h rest]
    omega

/-- The `while current_level.len() > 1` loop of `generate_proof`: emit
the sided sibling at each level (duplicating the current node when the
sibling index falls outside an odd level) and move to the parent index. -/
def buildPath (h : Hasher) (current_level : List Digest) (current_index : Nat) :
    List ProofStep :=
  if hgt : current_level.length > 1 then
    let next_level := combineLevel h current_level
    let sibling_index :=
      if current_index % 2 = 0 then current_index + 1 else current_index - 1
    let sibling_hash :=
      if sibling_index < current_level.length then
        current_level.getD sibling_index []
      else
        current_level.getD current_index []
    let step :=
      if current_index % 2 = 0 then ProofStep.right sibling_hash
      else ProofStep.left sibling_hash
    step :: buildPath h next_level (current_index / 2)
  else
    []
termination_by current_level.length
decreasing_by
  rw [combineLevel_length]
  omega

/-- `ChronoMerkleTree::generate_proof` (`src/proofs.rs`). -/
def Tree.generate_proof (h : Hasher) (tr : Tree) (leaf_index : Nat) :
    Except ChronoMerkleError ChronoProof :=
  if leaf_index ≥ tr.leaf_count then
    .error (.IndexOutOfBounds leaf_index tr.leaf_count)
  else
    let leaf := tr.nodes.getD leaf_index defaultNode
    let timestamp := leaf.timestamp_info.1
    let proof := ChronoProof.new leaf_index timestamp
    if tr.leaf_count = 1 then
      .ok proof
    else
      let level0 := (List.range tr.leaf_count).map
        (fun i => (tr.nodes.getD i defaultNode).hash)
      .ok { proof with path := buildPath h level0 leaf_index }

/-- The step loop of the free function `verify_proof` (`src/proof.rs`):
carry the current hash and the index of the next unconsumed companion
delta. -/
def verifySteps (h : Hasher) (delta_chain : Option (List Digest)) :
    List ProofStep → Digest → Nat → Except ChronoMerkleError Digest
  | [], current_hash, _ => .ok current_hash
  | ProofStep.left sibling :: rest, current_hash, delta_index =>
    verifySteps h delta_chain rest (h.hash_pair sibling current_hash) delta_index
  | ProofStep.right sibling :: rest, current_hash, delta_index =>
    verifySteps h delta_chain rest (h.hash_pair current_hash sibling) delta_index
  | ProofStep.delta old_hash new_hash :: rest, current_hash, delta_index =>
    if constant_time_eq current_hash old_hash then
      if constant_time_eq new_hash old_hash then
        .error (.ProofVerificationFailed
          "Delta proof cannot have identical old and new hashes")
      else
        match delta_chain with
        | some chain =>
          if delta_index ≥ chain.length then
            .error (.ProofVerificationFailed
              "Delta proof missing delta chain entry")
          else if ¬ constant_time_eq (chain.getD delta_index [])
              (h.hash_pair old_hash new_hash) then
            .error (.ProofVerificationFailed
              "Delta computation verification failed - invalid delta hash")
          else
            verifySteps h delta_chain rest new_hash (delta_index + 1)
        | none =>
          .error (.ProofVerificationFailed
            "Delta proof requires delta chain but none provided")
    else
      .error (.ProofVerificationFailed
        "Delta proof old_hash mismatch with current verification state")

/-- The free function `verify_proof` (`src/proof.rs`): replay the path,
require every programmable result to be true, then compare the final
hash with the root in constant time. -/
def verify_proof (h : Hasher) (proof : ChronoProof) (leaf_hash root_hash : Digest) :
    Except ChronoMerkleError Bool :=
  match verifySteps h proof.delta_chain proof.path leaf_hash 0 with
  | .error e => .error e
  | .ok current_hash =>
    if proof.programmable_results.any (fun result => !result) then
      .error (.ValidationFailed "Programmable node validation failed")
    else
      .ok (constant_time_eq current_hash root_hash)

/-- `ChronoMerkleTree::verify_proof` (`src/proofs.rs`): root and leaf
lookups, the tag-consistency check (a non-erroring `Ok(false)`), then the
cryptographic path verification. -/
def Tree.verify_proof (h : Hasher) (tr : Tree) (proof : ChronoProof) :
    Except ChronoMerkleError Bool :=
  match tr.root with
  | none => .error .EmptyTree
  | some root_hash =>
    match tr.get_leaf_hash proof.leaf_index with
    | .error e => .error e
    | .ok leaf_hash =>
      match tr.get_leaf_timestamp proof.leaf_index with
      | .error e => .error e
      | .ok actual_timestamp =>
        if proof.timestamp ≠ actual_timestamp then
          .ok false
        else
          ChronoMerkle.verify_proof h proof leaf_hash root_hash

/-- The replay loop of `ChronoMerkleTree::verify_delta` (`src/delta.rs`):
each delta node must commit `hash_pair(its base_hash, new_root)`, and on
success the current hash advances to `new_root`; non-delta nodes are
skipped. -/
def verifyDeltaLoop (h : Hasher) (new_root : Digest) :
    List Node → Digest → Except ChronoMerkleError Bool
  | [], current_hash => .ok (decide (current_hash = new_root))
  | delta_node :: rest, current_hash =>
    match delta_node with
    | NodeType.delta delta_hash base_hash _ =>
      if delta_hash ≠ h.hash_pair base_hash new_root then
        .ok false
      else
        verifyDeltaLoop h new_root rest new_root
    | _ => verifyDeltaLoop h new_root rest current_hash

/-- `ChronoMerkleTree::verify_delta` (`src/delta.rs`). -/
def verify_delta (h : Hasher) (old_root new_root : Digest)
    (delta_proof : List Node) : Except ChronoMerkleError Bool :=
  verifyDeltaLoop h new_root delta_proof old_root

/-- The leaf-retention test of `rollback_to_timestamp`: a leaf node whose
timestamp does not exceed the target (non-leaf nodes never match). -/
def keepLeaf (target_timestamp : Nat) : Node → Bool := fun n =>
  match n with
  | NodeType.leaf _ ts _ => decide (ts ≤ target_timestamp)
  | _ => false

/-- The delta-retention test of `rollback_to_timestamp`: drop deltas
tagged after the target, keep everything else. -/
def keepDelta (target_timestamp : Nat) : Node → Bool := fun n =>
  match n with
  | NodeType.delta _ _ ts => decide (ts ≤ target_timestamp)
  | _ => true

/-- `ChronoMerkleTree::rollback_to_timestamp` (`src/delta.rs`).  Returns
the new state and `none`, or the unchanged state and the error (the Rust
method early-returns before any mutation). -/
def Tree.rollback_to_timestamp (h : Hasher) (tr : Tree) (target_timestamp : Nat) :
    Tree × Option ChronoMerkleError :=
  if tr.leaf_count = 0 then
    (tr, some (.InvalidTimestamp target_timestamp))
  else
    let leaves_to_keep := tr.nodes.filter (keepLeaf target_timestamp)
    let timestamps_to_keep := leaves_to_keep.map (fun n => n.timestamp_info.1)
    if leaves_to_keep.isEmpty then
      (tr, some (.InvalidTimestamp target_timestamp))
    else
      let tr1 := { tr with
        nodes := leaves_to_keep
        leaf_count := leaves_to_keep.length
        sparse_index := (timestamps_to_keep.enum).foldl
          (fun si p => si.insert p.2 p.1)
          (SparseIndex.new tr.config.sparse_index_sparsity) }
      let tr2 := rebuild_tree h tr1
      let stored_deltas := tr2.stored_deltas.filter (keepDelta target_timestamp)
      ({ tr2 with
          stored_deltas := stored_deltas
          delta_chains := reindexDeltas tr.config.sparse_index_sparsity stored_deltas },
        none)

/-! ### The chunked form of one rebuild level -/

/-- The chunk-of-two view of one parent level: combine consecutive pairs,
combining the unpaired final node with itself.  `parentsAt_eq_combineNodes`
proves this is what the index-based loop body of `rebuild_tree` computes. -/
def combineNodes (h : Hasher) : List Node → List Node
  | a :: b :: rest => mkInternal h a b :: combineNodes h rest
  | [a] => [mkInternal h a a]
  | [] => []

theorem combineNodes_length (h : Hasher) :
    ∀ level : List Node, (combineNodes h level).length = (level.length + 1) / 2
  | [] => by simp [combineNodes]
  | [_] => by simp [combineNodes]
  | _ :: _ :: rest => by
    simp [combineNodes, combineNodes_length h rest]
    omega

/-- All levels above the leaves, concatenated bottom-up. -/
def allLevels (h : Hasher) (level : List Node) : List Node :=
  if hgt : level.length > 1 then
    combineNodes h level ++ allLevels h (combineNodes h level)
  else
    []
termination_by level.length
decreasing_by
  rw [combineNodes_length]
  omega

/-- The canonical node vector over a leaf list: the leaves followed by
every derived level. -/
def buildAll (h : Hasher) (leaves : List Node) : List Node :=
  leaves ++ allLevels h leaves

/-! ### The canonical root on the digest level -/

/-- The hash a node vector commits to: fold `combineLevel` until a single
digest remains.  This is the digest-level mirror of `allLevels`. -/
def topHash (h : Hasher) (level : List Digest) : Digest :=
  if hgt : level.length > 1 then
    topHash h (combineLevel h level)
  else
    level.getD 0 []
termination_by level.length
decreasing_by
  rw [combineLevel_length]
  omega

/-! ### Canonical tree states and reachability -/

/-- The leaf node `insert` creates for the entry `(data, timestamp)`. -/
def mkLeafNode (h : Hasher) (e : List Nat × Nat) : Node :=
  Node.leaf (h.hash e.1) e.2 (some e.1)

/-- An insert input that passes `validate_insert_inputs` under wall clock
`now`. -/
def validEntry (now : Nat) (e : List Nat × Nat) : Prop :=
  e.1 ≠ [] ∧ e.1.length ≤ MAX_DATA_SIZE ∧
    e.2 ≤ now + 365 * 24 * 60 * 60 ∧ now - 100 * 365 * 24 * 60 * 60 ≤ e.2

/-- The sparse index obtained by inserting `(timestamp, position)` for
each entry in order, starting from a fresh index of the given sparsity. -/
def mkSparse (s : Nat) (entries : List (List Nat × Nat)) : SparseIndex :=
  (entries.enum).foldl (fun si p => si.insert p.2.2 p.1) (SparseIndex.new s)

/-- A tree state whose derived part is exactly the canonical build over
an entry list: the invariant every reachable state satisfies. -/
def CanonicalEntries (h : Hasher) (now : Nat) (tr : Tree)
    (entries : List (List Nat × Nat)) : Prop :=
  (∀ e ∈ entries, validEntry now e) ∧
  tr.leaf_count = entries.length ∧
  tr.nodes = buildAll h (entries.map (mkLeafNode h)) ∧
  tr.sparse_index = mkSparse tr.config.sparse_index_sparsity entries ∧
  tr.config.sparse_index_sparsity ≠ 0

/-- Tree states reachable from a validated constructor call by successful
`insert`, successful `rollback_to_timestamp`, and `prune_deltas`, all under
one hasher and one wall clock. -/
inductive Reachable (h : Hasher) (now : Nat) : Tree → Prop where
  | base (cfg : TreeConfig) (tr : Tree) (hok : with_config cfg = .ok tr) :
      Reachable h now tr
  | insert_ok (tr tr' : Tree) (data : List Nat) (ts : Nat)
      (hr : Reachable h now tr) (hok : tr.insert h now data ts = (tr', none)) :
      Reachable h now tr'
  | rollback_ok (tr tr' : Tree) (target : Nat)
      (hr : Reachable h now tr)
      (hok : tr.rollback_to_timestamp h target = (tr', none)) :
      Reachable h now tr'
  | prune (tr : Tree) (t : Nat) (hr : Reachable h now tr) :
      Reachable h now (tr.prune_deltas t)

/-! ### Helper characterizations for the claims -/

/-- The replay described by the specification of `verify_delta`: starting
from the current digest, every delta node must commit
`hash_pair(its old root, new_root)` and advances the state to `new_root`;
a failing digest aborts the replay. -/
def chain_replays (h : Hasher) (new_root : Digest) : List Node → Digest → Option Digest
  | [], current => some current
  | n :: rest, current =>
    match n with
    | NodeType.delta delta_hash base_hash _ =>
      if delta_hash = h.hash_pair base_hash new_root then
        chain_replays h new_root rest new_root
      else
        none
    | _ => chain_replays h new_root rest current

/-- Sequential inserts of a list of `(data, timestamp)` entries; the
flag is false as soon as one insert fails (the failing state is
returned, as the Rust caller would see it). -/
def insertAll (h : Hasher) (now : Nat) : Tree → List (List Nat × Nat) → Tree × Bool
  | tr, [] => (tr, true)
  | tr, e :: rest =>
    match Tree.insert h now tr e.1 e.2 with
    | (tr', none) => insertAll h now tr' rest
    | (tr', some _) => (tr', false)

/-! ### The linear scans of `find_by_timestamp` and `find_range` -/

/-- The specification's exact-tag query: every leaf index `k` with
`L[k].t == t`, in ascending order. -/
def specFindByTag (tr : Tree) (t : Nat) : List Nat :=
  (List.range tr.leaf_count).filter (fun k =>
    decide ((tr.nodes.getD k defaultNode).timestamp_info.1 = t))

/-- The specification's range query: every leaf index `k` with
`lo ≤ L[k].t ≤ hi`, sorted ascending. -/
def specFindRange (tr : Tree) (lo hi : Nat) : List Nat :=
  (List.range tr.leaf_count).filter (fun k =>
    decide (lo ≤ (tr.nodes.getD k defaultNode).timestamp_info.1 ∧
      (tr.nodes.getD k defaultNode).timestamp_info.1 ≤ hi))

/-- The indices at which an entry satisfies the tag predicate, counted
from offset `k`: the common value of both query loops and both
specification scans. -/
def idxScan (p : Nat → Prop) [DecidablePred p] :
    List (List Nat × Nat) → Nat → List Nat
  | [], _ => []
  | e :: rest, k =>
    if p e.2 then k :: idxScan p rest (k + 1) else idxScan p rest (k + 1)

/-! ### Concrete instances used by witnesses and counterexamples -/

/-- A small executable hash for concrete runs: a polynomial fold into a
single value.  Any pure function satisfies the engine's hash contract. -/
def demoHasher : Hasher :=
  ⟨fun l => [l.foldl (fun a x => (a * 257 + x + 1) % 1000003) 1]⟩

/-- The crate defaults of `src/config.rs`. -/
def demoConfig : TreeConfig :=
  { sparse_index_sparsity := 1
    enable_deltas := true
    incremental_updates := true
    max_depth := 32
    parallel_construction := false }

/-- Defaults with `sparsity = 10` (scenario 5 of the specification). -/
def demoConfigSparse : TreeConfig :=
  { demoConfig with sparse_index_sparsity := 10 }

/-- Defaults with `max_depth = 1`, the smallest valid depth cap. -/
def demoConfigDepth1 : TreeConfig :=
  { demoConfig with max_depth := 1 }

def demoT0 : Tree := newTree demoConfig
def demoT1 : Tree := (demoT0.insert demoHasher 0 [1] 5).1
def demoT2 : Tree := (demoT1.insert demoHasher 0 [2] 20).1
def demoT3 : Tree := (demoT2.insert demoHasher 0 [3] 7).1
def demoT4 : Tree := (demoT3.insert demoHasher 0 [4] 9).1

def demoS0 : Tree := newTree demoConfigSparse
def demoS1 : Tree := (demoS0.insert demoHasher 0 [1] 1000).1
def demoS2 : Tree := (demoS1.insert demoHasher 0 [2] 1005).1
def demoS3 : Tree := (demoS2.insert demoHasher 0 [3] 1005).1

/-- The payload carried by a leaf node (`None` for non-leaf nodes):
the data from which `insert` built it. -/
def Node.leaf_data : Node → Option (List Nat)
  | NodeType.leaf _ _ d => d
  | _ => none

/-! ### Basic lemmas: constant-time equality and list access -/

theorem nat_or_eq_zero {a b : Nat} : a ||| b = 0 ↔ a = 0 ∧ b = 0 := by
  constructor
  · intro hor
    constructor
    · apply Nat.eq_of_testBit_eq
      intro i
      have hbit := congrArg (fun n => Nat.testBit n i) hor
      simp [Nat.testBit_or] at hbit
      simp [hbit.1]
    · apply Nat.eq_of_testBit_eq
      intro i
      have hbit := congrArg (fun n => Nat.testBit n i) hor
      simp [Nat.testBit_or] at hbit
      simp [hbit.2]
  · rintro ⟨rfl, rfl⟩
    rfl

theorem foldl_or_eq_zero (l : List Nat) (acc : Nat) :
    l.foldl (fun r x => r ||| x) acc = 0 ↔ acc = 0 ∧ ∀ x ∈ l, x = 0 := by
  induction l generalizing acc with
  | nil => simp
  | cons x rest ih =>
    simp only [List.foldl_cons, ih, nat_or_eq_zero, List.mem_cons]
    constructor
    · rintro ⟨⟨h1, h2⟩, h3⟩
      exact ⟨h1, fun y hy => hy.elim (fun he => he ▸ h2) (h3 y)⟩
    · rintro ⟨h1, h2⟩
      exact ⟨⟨h1, h2 x (Or.inl rfl)⟩, fun y hy => h2 y (Or.inr hy)⟩

theorem zip_forall_xor_eq (a b : Digest) (hlen : a.length = b.length) :
    (∀ p ∈ a.zip b, p.1 ^^^ p.2 = 0) ↔ a = b := by
  induction a generalizing b with
  | nil =>
    cases b with
    | nil => simp
    | cons y ys => simp at hlen
  | cons x xs ih =>
    cases b with
    | nil => simp at hlen
    | cons y ys =>
      simp only [List.zip_cons_cons, List.mem_cons, List.cons.injEq]
      constructor
      · intro hp
        have hx := hp (x, y) (Or.inl rfl)
        rw [Nat.xor_eq_zero] at hx
        refine ⟨hx, ?_⟩
        rw [← ih ys (by simpa using hlen)]
        intro p hpmem
        exact hp p (Or.inr hpmem)
      · rintro ⟨rfl, rfl⟩
        intro p hpmem
        rcases hpmem with he | hm
        · rw [he]
          exact Nat.xor_self x
        · have hall : ∀ q ∈ xs.zip xs, q.1 ^^^ q.2 = 0 := (ih xs rfl).mpr rfl
          exact hall p hm

/-- `constant_time_eq` decides digest equality. -/
theorem constant_time_eq_iff (a b : Digest) :
    constant_time_eq a b = decide (a = b) := by
  unfold constant_time_eq
  by_cases hlen : a.length = b.length
  · simp only [hlen, ne_eq, not_true_eq_false, if_false]
    have hfold : ((a.zip b).foldl (fun result xy => result ||| (xy.1 ^^^ xy.2)) 0)
        = ((a.zip b).map (fun xy => xy.1 ^^^ xy.2)).foldl (fun r x => r ||| x) 0 := by
      rw [List.foldl_map]
    rw [hfold]
    by_cases heq : a = b
    · subst heq
      have : ∀ x ∈ (a.zip a).map (fun xy => xy.1 ^^^ xy.2), x = 0 := by
        intro x hx
        rcases List.mem_map.mp hx with ⟨p, hp, rfl⟩
        exact (zip_forall_xor_eq a a rfl).mpr rfl p hp
      simp [(foldl_or_eq_zero _ 0).mpr ⟨rfl, this⟩]
    · have : ¬ ∀ x ∈ (a.zip b).map (fun xy => xy.1 ^^^ xy.2), x = 0 := by
        intro hall
        apply heq
        rw [← zip_forall_xor_eq a b hlen]
        intro p hp
        exact hall _ (List.mem_map.mpr ⟨p, hp, rfl⟩)
      rcases hfalse : ((a.zip b).map (fun xy => xy.1 ^^^ xy.2)).foldl
          (fun r x => r ||| x) 0 with _ | n
      · exact absurd ((foldl_or_eq_zero _ 0).mp hfalse).2 this
      · simp [heq]
  · have : a ≠ b := fun he => hlen (he ▸ rfl)
    simp [hlen, this]

theorem getD_append_left {α : Type} (l l' : List α) (i : Nat) (d : α)
    (hi : i < l.length) : (l ++ l').getD i d = l.getD i d := by
  rw [List.getD_eq_getElem?_getD, List.getD_eq_getElem?_getD,
    List.getElem?_append]
  simp [hi]

theorem getD_append_right {α : Type} (l l' : List α) (i : Nat) (d : α) :
    (l ++ l').getD (l.length + i) d = l'.getD i d := by
  rw [List.getD_eq_getElem?_getD, List.getD_eq_getElem?_getD,
    List.getElem?_append_right (Nat.le_add_right _ _)]
  simp

theorem getD_map {α β : Type} (f : α → β) (l : List α) (i : Nat) (d : β) (d' : α)
    (hi : i < l.length) : (l.map f).getD i d = f (l.getD i d') := by
  induction l generalizing i with
  | nil => simp at hi
  | cons x xs ih =>
    cases i with
    | zero => simp
    | succ j =>
      simp only [List.map_cons, List.getD_cons_succ]
      exact ih j (by simpa using hi)

theorem range_map_getD {α : Type} (l : List α) (d : α) :
    (List.range l.length).map (fun i => l.getD i d) = l := by
  induction l with
  | nil => simp
  | cons x xs ih =>
    simp only [List.length_cons, List.range_succ_eq_map, List.map_cons,
      List.getD_cons_zero, List.map_map]
    refine congrArg (x :: ·) ?_
    have : ((fun i => (x :: xs).getD i d) ∘ Nat.succ) = fun i => xs.getD i d := by
      funext i
      simp
    rw [this, ih]

/-- Every node a level-combine produces is an internal node. -/
theorem combineNodes_is_internal (h : Hasher) :
    ∀ level : List Node, ∀ n ∈ combineNodes h level,
      n.is_leaf = false ∧ n.is_internal = true
  | [], n, hn => by simp [combineNodes] at hn
  | [a], n, hn => by
    simp [combineNodes] at hn
    subst hn
    simp [mkInternal, Node.internal, Node.is_leaf, Node.is_internal]
  | a :: b :: rest, n, hn => by
    rcases List.mem_cons.mp hn with he | hm
    · subst he
      simp [mkInternal, Node.internal, Node.is_leaf, Node.is_internal]
    · exact combineNodes_is_internal h rest n hm

theorem allLevels_is_internal (h : Hasher) (level : List Node) :
    ∀ n ∈ allLevels h level, n.is_leaf = false ∧ n.is_internal = true := by
  intro n hn
  rw [allLevels] at hn
  split at hn
  case isTrue hgt =>
    rcases List.mem_append.mp hn with hm | hm
    · exact combineNodes_is_internal h level n hm
    · exact allLevels_is_internal h (combineNodes h level) n hm
  case isFalse hgt =>
    simp at hn
termination_by level.length
decreasing_by
  rw [combineNodes_length]
  omega

/-- `parentAt` only reads the window arithmetic: shifting the start by two
and dropping two from the count relabels the same parent. -/
theorem parentAt_shift (h : Hasher) (ns : List Node) (s c i : Nat) (hc : 1 ≤ c) :
    parentAt h ns s (c + 2) (i + 1) = parentAt h ns (s + 2) c i := by
  unfold parentAt
  have h1 : s + 2 * (i + 1) = s + 2 + 2 * i := by omega
  have h2 : s + (c + 2) = s + 2 + c := by omega
  rw [h1, h2]

/-- The parent level the index-based loop body of `rebuild_tree` computes
over the window `pre.length ..< pre.length + lvl.length` is the chunked
combine of `lvl`. -/
theorem parents_eq_combineNodes (h : Hasher) :
    ∀ (lvl pre : List Node), lvl ≠ [] →
      (List.range ((lvl.length + 1) / 2)).map
        (parentAt h (pre ++ lvl) pre.length lvl.length) = combineNodes h lvl
  | [], _, hne => absurd rfl hne
  | [a], pre, _ => by
    have hget : (pre ++ [a]).getD pre.length defaultNode = a := by
      have h0 := getD_append_right pre [a] 0 defaultNode
      rw [Nat.add_zero, List.getD_cons_zero] at h0
      exact h0
    have hpa : parentAt h (pre ++ [a]) pre.length ([a] : List Node).length 0
        = mkInternal h a a := by
      unfold parentAt
      simp only [List.length_singleton, Nat.mul_zero, Nat.add_zero]
      rw [if_neg (by omega), Nat.add_sub_cancel, hget]
    have hr : ((([a] : List Node).length + 1) / 2) = 1 := by simp
    rw [hr, List.range_succ, List.range_zero, List.nil_append, List.map_cons,
      List.map_nil, hpa]
    rfl
  | a :: b :: rest, pre, _ => by
    have hsplit : ((a :: b :: rest).length + 1) / 2 = (rest.length + 1) / 2 + 1 := by
      simp only [List.length_cons]
      omega
    rw [hsplit, List.range_succ_eq_map, List.map_cons, List.map_map]
    have hgeta : (pre ++ a :: b :: rest).getD pre.length defaultNode = a := by
      have := getD_append_right pre (a :: b :: rest) 0 defaultNode
      simpa using this
    have hgetb : (pre ++ a :: b :: rest).getD (pre.length + 1) defaultNode = b := by
      have := getD_append_right pre (a :: b :: rest) 1 defaultNode
      simpa using this
    have hhead : parentAt h (pre ++ a :: b :: rest) pre.length
        (a :: b :: rest).length 0 = mkInternal h a b := by
      unfold parentAt
      simp only [List.length_cons, Nat.mul_zero, Nat.add_zero, hgeta]
      have hlt : pre.length + 0 + 1 < pre.length + (rest.length + 1 + 1) := by omega
      simp only [Nat.add_zero, hlt, if_true]
      rw [hgetb]
    rw [hhead]
    refine congrArg (mkInternal h a b :: ·) ?_
    cases hrest : rest with
    | nil =>
      subst hrest
      simp [combineNodes]
    | cons r rs =>
      have hrne : rest ≠ [] := by rw [hrest]; exact List.cons_ne_nil r rs
      rw [← hrest]
      have hpt : ∀ i ∈ List.range ((rest.length + 1) / 2),
          (parentAt h (pre ++ a :: b :: rest) pre.length (a :: b :: rest).length ∘
            Nat.succ) i =
          parentAt h ((pre ++ [a, b]) ++ rest) (pre ++ [a, b]).length rest.length i := by
        intro i _
        have hns : pre ++ a :: b :: rest = (pre ++ [a, b]) ++ rest := by simp
        have hlen2 : (pre ++ [a, b]).length = pre.length + 2 := by simp
        have hcl : (a :: b :: rest).length = rest.length + 2 := by simp
        simp only [Function.comp_apply, hns, hlen2, hcl, Nat.succ_eq_add_one]
        exact parentAt_shift h ((pre ++ [a, b]) ++ rest) pre.length rest.length i
          (by rw [hrest]; simp)
      rw [List.map_congr_left hpt]
      exact parents_eq_combineNodes h rest (pre ++ [a, b]) hrne

/-- With sufficient fuel, the rebuild loop appends exactly the canonical
derived levels of the current window. -/
theorem buildLoopF_eq (h : Hasher) :
    ∀ (fuel : Nat) (pre lvl : List Node), lvl.length ≤ fuel → lvl ≠ [] →
      buildLoopF h fuel (pre ++ lvl) pre.length lvl.length =
        (pre ++ lvl) ++ allLevels h lvl
  | 0, _, lvl, hfuel, hne => by
    exact absurd (List.eq_nil_of_length_eq_zero (by omega)) hne
  | fuel + 1, pre, lvl, hfuel, hne => by
    rw [buildLoopF]
    by_cases hgt : lvl.length > 1
    · rw [if_pos hgt]
      have hparents : (List.range ((lvl.length + 1) / 2)).map
          (parentAt h (pre ++ lvl) pre.length lvl.length) = combineNodes h lvl :=
        parents_eq_combineNodes h lvl pre hne
      have hcne : combineNodes h lvl ≠ [] := by
        apply List.ne_nil_of_length_pos
        rw [combineNodes_length]
        omega
      have hs : pre.length + lvl.length = (pre ++ lvl).length := by
        simp
      simp only [hparents, hs]
      have hclen : (combineNodes h lvl).length = (lvl.length + 1) / 2 :=
        combineNodes_length h lvl
      have hrec := buildLoopF_eq h fuel (pre ++ lvl) (combineNodes h lvl)
        (by omega) hcne
      rw [hclen] at hrec
      rw [hrec]
      have hall : allLevels h lvl
          = combineNodes h lvl ++ allLevels h (combineNodes h lvl) := by
        rw [allLevels, dif_pos hgt]
      rw [hall]
      simp [List.append_assoc]
    · rw [if_neg hgt]
      have hall : allLevels h lvl = [] := by
        rw [allLevels, dif_neg hgt]
      rw [hall, List.append_nil]

/-- The full `while` loop of `rebuild_tree` appends exactly the canonical
derived levels of the current window. -/
theorem buildLoop_eq (h : Hasher) (cnt : Nat) (pre lvl : List Node)
    (hlen : lvl.length = cnt) (hne : lvl ≠ []) :
    buildLoop h (pre ++ lvl) pre.length cnt = (pre ++ lvl) ++ allLevels h lvl := by
  subst hlen
  exact buildLoopF_eq h lvl.length pre lvl (Nat.le_refl _) hne

theorem topHash_step (h : Hasher) (level : List Digest) (hgt : level.length > 1) :
    topHash h level = topHash h (combineLevel h level) := by
  rw [topHash, dif_pos hgt]

/-- Node-level combine and digest-level combine agree through `Node.hash`. -/
theorem map_hash_combineNodes (h : Hasher) :
    ∀ level : List Node,
      (combineNodes h level).map Node.hash = combineLevel h (level.map Node.hash)
  | [] => by simp [combineNodes, combineLevel]
  | [a] => by
    simp [combineNodes, combineLevel, mkInternal, Node.internal, Node.hash]
  | a :: b :: rest => by
    simp only [combineNodes, List.map_cons, combineLevel,
      map_hash_combineNodes h rest]
    refine congrArg (· :: _) ?_
    simp [mkInternal, Node.internal, Node.hash]

/-- The last node of the canonical vector carries the canonical top hash. -/
theorem getLast_buildAll (h : Hasher) (leaves : List Node) (hne : leaves ≠ []) :
    (buildAll h leaves).getLast?.map Node.hash =
      some (topHash h (leaves.map Node.hash)) := by
  rw [buildAll, allLevels]
  by_cases hgt : leaves.length > 1
  · rw [dif_pos hgt]
    have hcne : combineNodes h leaves ≠ [] := by
      apply List.ne_nil_of_length_pos
      rw [combineNodes_length]
      omega
    have hrec := getLast_buildAll h (combineNodes h leaves) hcne
    rw [buildAll] at hrec
    have htne : combineNodes h leaves ++ allLevels h (combineNodes h leaves) ≠ [] := by
      intro hz
      exact hcne (List.append_eq_nil.mp hz).1
    rw [List.getLast?_append_of_ne_nil _ htne, hrec, map_hash_combineNodes]
    rw [← topHash_step h (List.map Node.hash leaves)
      (by rw [List.length_map]; exact hgt)]
  · rw [dif_neg hgt, List.append_nil]
    have hone : leaves.length = 1 := by
      have : leaves.length ≠ 0 := fun hz => hne (List.eq_nil_of_length_eq_zero hz)
      omega
    rcases leaves with _ | ⟨x, xs⟩
    · exact absurd rfl hne
    · have hxs : xs = [] := by
        simpa [List.length_cons] using hone
      subst hxs
      rw [topHash]
      simp
termination_by leaves.length
decreasing_by
  rw [combineNodes_length]
  omega
/-! ### The proof-path round trip -/

/-- Where a level element lands after one combine: element `idx` of a
level contributes to parent `idx / 2`, paired with its sibling (or with
itself when it is the unpaired last element). -/
theorem combineLevel_getD (h : Hasher) :
    ∀ (lvl : List Digest) (idx : Nat), idx < lvl.length →
      (combineLevel h lvl).getD (idx / 2) [] =
        if idx % 2 = 0 then
          (if idx + 1 < lvl.length then
            h.hash_pair (lvl.getD idx []) (lvl.getD (idx + 1) [])
          else
            h.hash_pair (lvl.getD idx []) (lvl.getD idx []))
        else
          h.hash_pair (lvl.getD (idx - 1) []) (lvl.getD idx [])
  | [], idx, hidx => by simp at hidx
  | [a], 0, _ => by simp [combineLevel]
  | [a], (i + 1), hidx => by
    simp only [List.length_singleton] at hidx
    omega
  | a :: b :: rest, 0, _ => by
    have hc : (0 : Nat) + 1 < (a :: b :: rest).length := by
      simp only [List.length_cons]
      omega
    simp only [combineLevel, Nat.zero_div, List.getD_cons_zero, Nat.zero_mod,
      if_pos rfl, hc, if_pos]
    simp
  | a :: b :: rest, 1, _ => by
    have h10 : (1 : Nat) / 2 = 0 := by omega
    have h1m : ¬ ((1 : Nat) % 2 = 0) := by omega
    simp only [combineLevel, h10, List.getD_cons_zero, h1m, if_false]
    simp
  | a :: b :: rest, (i + 2), hidx => by
    have hlt : i < rest.length := by
      simp only [List.length_cons] at hidx
      omega
    have hdiv : (i + 2) / 2 = i / 2 + 1 := by omega
    have hmod : (i + 2) % 2 = i % 2 := by omega
    have hrec := combineLevel_getD h rest i hlt
    simp only [combineLevel, hdiv, hmod, List.getD_cons_succ, hrec]
    by_cases hpar : i % 2 = 0
    · simp only [hpar, if_pos rfl]
      have hcond : i + 2 + 1 < (a :: b :: rest).length ↔ i + 1 < rest.length := by
        simp only [List.length_cons]
        omega
      by_cases hlt1 : i + 1 < rest.length
      · rw [if_pos hlt1, if_pos (hcond.mpr hlt1)]
        simp
      · rw [if_neg hlt1, if_neg (fun hx => hlt1 (hcond.mp hx))]
        simp
    · simp only [hpar, if_false]
      have hi1 : 1 ≤ i := by omega
      have hsub : i + 2 - 1 = (i - 1) + 2 := by omega
      rw [hsub]
      simp

/-- Replaying the sided path `buildPath` emits from any in-bounds index
reproduces the level's top hash; the delta companion list and index are
irrelevant because the emitted path has no delta steps. -/
theorem verifySteps_buildPath (h : Hasher) (dc : Option (List Digest)) :
    ∀ (lvl : List Digest) (idx : Nat), idx < lvl.length → ∀ (di : Nat),
      verifySteps h dc (buildPath h lvl idx) (lvl.getD idx []) di =
        .ok (topHash h lvl) := by
  intro lvl idx hidx di
  rw [buildPath]
  by_cases hgt : lvl.length > 1
  · rw [dif_pos hgt]
    have hnext : idx / 2 < (combineLevel h lvl).length := by
      rw [combineLevel_length]
      omega
    have hcg := combineLevel_getD h lvl idx hidx
    have hrec := verifySteps_buildPath h dc (combineLevel h lvl) (idx / 2) hnext di
    by_cases hpar : idx % 2 = 0
    · by_cases hsib : idx + 1 < lvl.length
      · simp only [hpar, hsib, eq_self_iff_true, ite_true, verifySteps] at hcg ⊢
        rw [← hcg, hrec, ← topHash_step h lvl hgt]
      · simp only [hpar, hsib, eq_self_iff_true, ite_true, ite_false,
          verifySteps] at hcg ⊢
        rw [← hcg, hrec, ← topHash_step h lvl hgt]
    · have hsibm : idx - 1 < lvl.length := by omega
      simp only [hpar, hsibm, eq_self_iff_true, ite_true, ite_false,
        verifySteps] at hcg ⊢
      rw [← hcg, hrec, ← topHash_step h lvl hgt]
  · rw [dif_neg hgt]
    have hone : idx = 0 := by omega
    subst hone
    rw [topHash, dif_neg hgt]
    rfl
termination_by lvl => lvl.length
decreasing_by
  all_goals rw [combineLevel_length]
  all_goals omega

theorem mkSparse_append (s : Nat) (entries : List (List Nat × Nat))
    (e : List Nat × Nat) :
    mkSparse s (entries ++ [e]) = (mkSparse s entries).insert e.2 entries.length := by
  unfold mkSparse
  rw [List.enum_append, List.foldl_append]
  simp [List.enumFrom]

/-- `validate_insert_inputs` holds exactly on valid entries; the
duplicate-timestamp probe only logs and never fails. -/
theorem validate_insert_inputs_iff (tr : Tree) (data : List Nat) (ts now : Nat) :
    tr.validate_insert_inputs data ts now = .ok () ↔ validEntry now (data, ts) := by
  unfold Tree.validate_insert_inputs validEntry
  simp only []
  constructor
  · intro hok
    split_ifs at hok with h1 h2 h3 h4
    rw [List.isEmpty_iff] at h2
    exact ⟨h2, by omega, by omega, by omega⟩
  · rintro ⟨hne, hlen, hub, hlb⟩
    have h1 : ¬ data.length > MAX_DATA_SIZE := by omega
    have h2 : ¬ data.isEmpty = true := by
      simp only [List.isEmpty_iff]
      exact hne
    rw [if_neg h1, if_neg h2, if_neg (by omega), if_neg (by omega)]

/-- All three rebuild dispatch branches of `insert` perform the same full
rebuild. -/
theorem update_tree_incremental_eq (h : Hasher) (tr : Tree) :
    update_tree_incremental h tr = rebuild_tree h tr := by
  unfold update_tree_incremental rebuild_tree_parallel
  exact ite_self _

/-- On validated input, `insert` succeeds onto the delta stage applied
to the rebuild of the pushed state. -/
theorem insert_ok_form (h : Hasher) (now : Nat) (tr : Tree) (data : List Nat)
    (ts : Nat) (hok : tr.validate_insert_inputs data ts now = .ok ()) :
    Tree.insert h now tr data ts =
      (delta_stage h ts tr.root (rebuild_tree h (pushLeaf h tr data ts)), none) := by
  unfold Tree.insert
  rw [hok]
  simp only [update_tree_incremental_eq, rebuild_tree_parallel, ite_self]

/-- The delta stage never touches the node vector, the leaf count, the
sparse index, or the configuration. -/
theorem delta_stage_invariants (h : Hasher) (ts : Nat) (old_root : Option Digest)
    (t3 : Tree) :
    (delta_stage h ts old_root t3).nodes = t3.nodes ∧
    (delta_stage h ts old_root t3).leaf_count = t3.leaf_count ∧
    (delta_stage h ts old_root t3).sparse_index = t3.sparse_index ∧
    (delta_stage h ts old_root t3).config = t3.config ∧
    (delta_stage h ts old_root t3).root = t3.root := by
  unfold delta_stage
  repeat' split
  all_goals exact ⟨rfl, rfl, rfl, rfl, rfl⟩

/-- Exactly when one delta is appended, and what it is. -/
theorem delta_stage_deltas (h : Hasher) (ts : Nat) (old_root : Option Digest)
    (t3 : Tree) :
    ((t3.config.enable_deltas = true ∧
      ∃ r0 r1, old_root = some r0 ∧ t3.root = some r1 ∧ r0 ≠ r1 ∧
        (delta_stage h ts old_root t3).stored_deltas =
          t3.stored_deltas ++ [Node.delta (h.hash_pair r0 r1) r0 ts]) ∨
     ((t3.config.enable_deltas = false ∨ old_root = none ∨ t3.root = none ∨
        ∃ r, old_root = some r ∧ t3.root = some r) ∧
      (delta_stage h ts old_root t3).stored_deltas = t3.stored_deltas)) := by
  cases henable : t3.config.enable_deltas with
  | false =>
    refine Or.inr ⟨Or.inl rfl, ?_⟩
    simp only [delta_stage, henable]
    rfl
  | true =>
    cases old_root with
    | none =>
      refine Or.inr ⟨Or.inr (Or.inl rfl), ?_⟩
      simp only [delta_stage, henable]
      rfl
    | some r0 =>
      cases hroot : t3.root with
      | none =>
        refine Or.inr ⟨Or.inr (Or.inr (Or.inl rfl)), ?_⟩
        simp only [delta_stage, henable, hroot]
        rfl
      | some r1 =>
        by_cases hne : r0 = r1
        · refine Or.inr ⟨Or.inr (Or.inr (Or.inr ⟨r0, rfl, by rw [hne]⟩)), ?_⟩
          simp only [delta_stage, henable, hroot]
          rw [if_neg (not_not_intro hne)]
          simp
        · refine Or.inl ⟨rfl, r0, r1, rfl, rfl, hne, ?_⟩
          simp only [delta_stage, henable, hroot]
          rw [if_pos hne]
          simp

theorem mkLeafNode_is_leaf (h : Hasher) (e : List Nat × Nat) :
    (mkLeafNode h e).is_leaf = true := rfl

/-- `rebuild_tree` replaces the node vector by the canonical build over
the leaf nodes it extracts. -/
theorem rebuild_eq_buildAll (h : Hasher) (tr : Tree) (ls : List Node)
    (hfil : tr.nodes.filter Node.is_leaf = ls)
    (hlc : tr.leaf_count = ls.length)
    (hne : ls ≠ [])
    (hone : ls.length = 1 → tr.nodes.take 1 = ls) :
    rebuild_tree h tr = { tr with nodes := buildAll h ls } := by
  unfold rebuild_tree
  have hlz : tr.leaf_count ≠ 0 := by
    rw [hlc]
    intro hz
    exact hne (List.eq_nil_of_length_eq_zero hz)
  rw [if_neg hlz]
  by_cases h1 : tr.leaf_count = 1
  · rw [if_pos h1]
    have hl1 : ls.length = 1 := by omega
    rw [hone hl1]
    have : buildAll h ls = ls := by
      rw [buildAll, allLevels, dif_neg (by omega), List.append_nil]
    rw [this]
  · rw [if_neg h1]
    rw [hfil, hlc]
    have hb := buildLoop_eq h ls.length [] ls rfl hne
    simp only [List.nil_append, List.length_nil] at hb
    simp only []
    rw [hb]
    rfl

/-- Inserting a valid entry into a canonical state yields the canonical
state over the extended entry list; the configuration is untouched. -/
theorem insert_preserves_canonical (h : Hasher) (now : Nat) (tr : Tree)
    (entries : List (List Nat × Nat)) (data : List Nat) (ts : Nat)
    (hc : CanonicalEntries h now tr entries) (hv : validEntry now (data, ts)) :
    ∃ tr', Tree.insert h now tr data ts = (tr', none) ∧
      CanonicalEntries h now tr' (entries ++ [(data, ts)]) ∧
      tr'.config = tr.config := by
  obtain ⟨hval, hlc, hnodes, hsi, hspar⟩ := hc
  have hok : tr.validate_insert_inputs data ts now = .ok () :=
    (validate_insert_inputs_iff tr data ts now).mpr hv
  have heq := insert_ok_form h now tr data ts hok
  obtain ⟨hdsn, hdsl, hdss, hdsc, _⟩ := delta_stage_invariants h ts tr.root
    (rebuild_tree h (pushLeaf h tr data ts))
  set ls := entries.map (mkLeafNode h) with hls
  have hlsleaf : ∀ n ∈ ls, n.is_leaf = true := by
    intro n hn
    rcases List.mem_map.mp hn with ⟨e, _, rfl⟩
    exact mkLeafNode_is_leaf h e
  have hpush : (pushLeaf h tr data ts).nodes
      = buildAll h ls ++ [mkLeafNode h (data, ts)] := by
    simp [pushLeaf, hnodes, mkLeafNode, Node.leaf]
  have hfil : (pushLeaf h tr data ts).nodes.filter Node.is_leaf
      = ls ++ [mkLeafNode h (data, ts)] := by
    rw [hpush, List.filter_append, buildAll, List.filter_append]
    have hf1 : ls.filter Node.is_leaf = ls := by
      rw [List.filter_eq_self]
      exact hlsleaf
    have hf2 : (allLevels h ls).filter Node.is_leaf = [] := by
      rw [List.filter_eq_nil]
      intro n hn
      rw [(allLevels_is_internal h ls n hn).1]
      simp
    have hf3 : ([mkLeafNode h (data, ts)]).filter Node.is_leaf
        = [mkLeafNode h (data, ts)] := by
      rw [List.filter_eq_self]
      intro n hn
      rw [List.mem_singleton.mp hn]
      exact mkLeafNode_is_leaf h _
    rw [hf1, hf2, hf3, List.append_nil]
  have hlc' : (pushLeaf h tr data ts).leaf_count
      = (ls ++ [mkLeafNode h (data, ts)]).length := by
    simp [pushLeaf, hlc, hls]
  have hone : (ls ++ [mkLeafNode h (data, ts)]).length = 1 →
      (pushLeaf h tr data ts).nodes.take 1 = ls ++ [mkLeafNode h (data, ts)] := by
    intro hl1
    have hlsnil : ls = [] := by
      rcases ls with _ | ⟨x, xs⟩
      · rfl
      · simp at hl1
    rw [hpush, hlsnil]
    simp [buildAll, allLevels]
  have hrb := rebuild_eq_buildAll h (pushLeaf h tr data ts)
    (ls ++ [mkLeafNode h (data, ts)]) hfil hlc'
    (by simp) hone
  have hlcR : (rebuild_tree h (pushLeaf h tr data ts)).leaf_count
      = (entries ++ [(data, ts)]).length := by
    rw [hrb, hlc']
    simp [hls]
  have hnodesR : (rebuild_tree h (pushLeaf h tr data ts)).nodes
      = buildAll h ((entries ++ [(data, ts)]).map (mkLeafNode h)) := by
    rw [hrb]
    simp only [List.map_append, List.map_cons, List.map_nil, hls]
  have hcfgR : (rebuild_tree h (pushLeaf h tr data ts)).config = tr.config := by
    rw [hrb]
    rfl
  have hsiR : (rebuild_tree h (pushLeaf h tr data ts)).sparse_index
      = mkSparse tr.config.sparse_index_sparsity (entries ++ [(data, ts)]) := by
    rw [hrb]
    show (pushLeaf h tr data ts).sparse_index = _
    rw [mkSparse_append]
    show tr.sparse_index.insert ts tr.leaf_count = _
    rw [hsi, hlc]
  refine ⟨_, heq, ⟨?_, ?_, ?_, ?_, ?_⟩, ?_⟩
  · intro e he
    rcases List.mem_append.mp he with hm | hm
    · exact hval e hm
    · rw [List.mem_singleton.mp hm]
      exact hv
  · rw [hdsl]
    exact hlcR
  · rw [hdsn]
    exact hnodesR
  · rw [hdss, hdsc, hcfgR]
    exact hsiR
  · rw [hdsc, hcfgR]
    exact hspar
  · rw [hdsc]
    exact hcfgR
theorem rebuild_tree_stored_deltas (h : Hasher) (t : Tree) :
    (rebuild_tree h t).stored_deltas = t.stored_deltas := by
  unfold rebuild_tree
  split_ifs <;> rfl

theorem rebuild_tree_config (h : Hasher) (t : Tree) :
    (rebuild_tree h t).config = t.config := by
  unfold rebuild_tree
  split_ifs <;> rfl

/-- The success path of `rollback_to_timestamp`, spelled out: retained
leaves, re-derived layers, rebuilt sparse index, truncated delta log. -/
theorem rollback_ok_cases (h : Hasher) (tr : Tree) (target : Nat)
    (hlz : tr.leaf_count ≠ 0)
    (hne : tr.nodes.filter (keepLeaf target) ≠ []) :
    tr.rollback_to_timestamp h target =
      ({ rebuild_tree h { tr with
            nodes := tr.nodes.filter (keepLeaf target)
            leaf_count := (tr.nodes.filter (keepLeaf target)).length
            sparse_index := (((tr.nodes.filter (keepLeaf target)).map
                (fun n => n.timestamp_info.1)).enum).foldl
              (fun si p => si.insert p.2 p.1)
              (SparseIndex.new tr.config.sparse_index_sparsity) }
          with
          stored_deltas := tr.stored_deltas.filter (keepDelta target)
          delta_chains := reindexDeltas tr.config.sparse_index_sparsity
            (tr.stored_deltas.filter (keepDelta target)) }, none) := by
  unfold Tree.rollback_to_timestamp
  rw [if_neg hlz]
  simp only []
  rw [if_neg (by simp only [List.isEmpty_iff]; exact hne)]
  rw [rebuild_tree_stored_deltas]
theorem keepLeaf_mkLeafNode (h : Hasher) (target : Nat) (e : List Nat × Nat) :
    keepLeaf target (mkLeafNode h e) = decide (e.2 ≤ target) := rfl

theorem enumFrom_map_snd :
    ∀ (n : Nat) (entries : List (List Nat × Nat)),
      List.enumFrom n (entries.map (fun e => e.2)) =
        (List.enumFrom n entries).map (fun p => (p.1, p.2.2))
  | _, [] => rfl
  | n, e :: rest => by
    simp only [List.map_cons, List.enumFrom_cons, enumFrom_map_snd (n + 1) rest]

/-- The index rebuild of `rollback_to_timestamp` over the retained
timestamps is the canonical sparse index over the retained entries. -/
theorem foldl_enum_snd_eq_mkSparse (s : Nat) (entries : List (List Nat × Nat)) :
    (((entries.map (fun e => e.2)).enum).foldl
        (fun si p => si.insert p.2 p.1) (SparseIndex.new s)) =
      mkSparse s entries := by
  unfold mkSparse
  rw [List.enum, enumFrom_map_snd, List.foldl_map]
  rfl

/-- Rolling back a canonical state succeeds onto the canonical state over
the retained entries, with the delta log truncated. -/
theorem rollback_preserves_canonical (h : Hasher) (now : Nat) (tr tr' : Tree)
    (entries : List (List Nat × Nat)) (target : Nat)
    (hc : CanonicalEntries h now tr entries)
    (hok : tr.rollback_to_timestamp h target = (tr', none)) :
    CanonicalEntries h now tr' (entries.filter (fun e => decide (e.2 ≤ target))) ∧
      tr'.config = tr.config ∧
      tr'.stored_deltas = tr.stored_deltas.filter (keepDelta target) := by
  obtain ⟨hval, hlc, hnodes, hsi, hspar⟩ := hc
  set E := entries.filter (fun e => decide (e.2 ≤ target)) with hE
  set ls := entries.map (mkLeafNode h) with hls
  have hlsleaf : ∀ n ∈ ls, n.is_leaf = true := by
    intro n hn
    rcases List.mem_map.mp hn with ⟨e, _, rfl⟩
    exact mkLeafNode_is_leaf h e
  have hkept : tr.nodes.filter (keepLeaf target) = E.map (mkLeafNode h) := by
    rw [hnodes, buildAll, List.filter_append]
    have hf2 : (allLevels h ls).filter (keepLeaf target) = [] := by
      rw [List.filter_eq_nil]
      intro n hn
      have hint := (allLevels_is_internal h ls n hn).2
      cases n with
      | leaf _ _ _ => simp [Node.is_internal] at hint
      | delta _ _ _ => simp [Node.is_internal] at hint
      | internal _ _ _ _ => simp [keepLeaf]
    rw [hf2, List.append_nil, hls, List.map_filter]
    rfl
  have hlz : tr.leaf_count ≠ 0 := by
    intro hz
    unfold Tree.rollback_to_timestamp at hok
    rw [if_pos hz] at hok
    simp at hok
  have hne : tr.nodes.filter (keepLeaf target) ≠ [] := by
    intro hz
    unfold Tree.rollback_to_timestamp at hok
    rw [if_neg hlz] at hok
    simp only [] at hok
    rw [if_pos (by simp only [List.isEmpty_iff]; exact hz)] at hok
    simp at hok
  have hcase := rollback_ok_cases h tr target hlz hne
  rw [hcase] at hok
  have htr' : tr' = { rebuild_tree h { tr with
      nodes := tr.nodes.filter (keepLeaf target)
      leaf_count := (tr.nodes.filter (keepLeaf target)).length
      sparse_index := (((tr.nodes.filter (keepLeaf target)).map
          (fun n => n.timestamp_info.1)).enum).foldl
        (fun si p => si.insert p.2 p.1)
        (SparseIndex.new tr.config.sparse_index_sparsity) }
    with
    stored_deltas := tr.stored_deltas.filter (keepDelta target)
    delta_chains := reindexDeltas tr.config.sparse_index_sparsity
      (tr.stored_deltas.filter (keepDelta target)) } := by
    have := congrArg Prod.fst hok
    exact this.symm
  have hEne : E.map (mkLeafNode h) ≠ [] := by
    rw [← hkept]
    exact hne
  have hrb := rebuild_eq_buildAll h
    { tr with
      nodes := tr.nodes.filter (keepLeaf target)
      leaf_count := (tr.nodes.filter (keepLeaf target)).length
      sparse_index := (((tr.nodes.filter (keepLeaf target)).map
          (fun n => n.timestamp_info.1)).enum).foldl
        (fun si p => si.insert p.2 p.1)
        (SparseIndex.new tr.config.sparse_index_sparsity) }
    (E.map (mkLeafNode h))
    (by
      show (tr.nodes.filter (keepLeaf target)).filter Node.is_leaf = _
      rw [hkept, List.filter_eq_self]
      intro n hn
      rcases List.mem_map.mp hn with ⟨e, _, rfl⟩
      exact mkLeafNode_is_leaf h e)
    (by
      show (tr.nodes.filter (keepLeaf target)).length = _
      rw [hkept])
    hEne
    (by
      intro hl1
      show (tr.nodes.filter (keepLeaf target)).take 1 = _
      rw [hkept, ← hl1, List.take_length])
  have hts : (tr.nodes.filter (keepLeaf target)).map (fun n => n.timestamp_info.1)
      = E.map (fun e => e.2) := by
    rw [hkept, List.map_map]
    rfl
  refine ⟨⟨?_, ?_, ?_, ?_, ?_⟩, ?_, ?_⟩
  · intro e he
    exact hval e (List.mem_filter.mp (hE ▸ he)).1
  · rw [htr']
    show (rebuild_tree h _).leaf_count = E.length
    rw [hrb]
    show (tr.nodes.filter (keepLeaf target)).length = E.length
    rw [hkept, List.length_map]
  · rw [htr']
    show (rebuild_tree h _).nodes = _
    rw [hrb]
  · rw [htr']
    show (rebuild_tree h _).sparse_index
      = mkSparse (rebuild_tree h _).config.sparse_index_sparsity E
    rw [hrb]
    show (((tr.nodes.filter (keepLeaf target)).map
        (fun n => n.timestamp_info.1)).enum).foldl
        (fun si p => si.insert p.2 p.1)
        (SparseIndex.new tr.config.sparse_index_sparsity)
      = mkSparse tr.config.sparse_index_sparsity E
    rw [hts]
    exact foldl_enum_snd_eq_mkSparse tr.config.sparse_index_sparsity E
  · rw [htr']
    show (rebuild_tree h _).config.sparse_index_sparsity ≠ 0
    rw [hrb]
    exact hspar
  · rw [htr']
    show (rebuild_tree h _).config = tr.config
    rw [hrb]
  · rw [htr']

/-- Every reachable tree state is the canonical state over some list of
validated insert entries. -/
theorem reachable_canonical (h : Hasher) (now : Nat) (tr : Tree)
    (hr : Reachable h now tr) :
    ∃ entries, CanonicalEntries h now tr entries := by
  induction hr with
  | base cfg tr hok =>
    refine ⟨[], ?_⟩
    have hval : cfg.validate = .ok () ∧ tr = newTree cfg := by
      unfold with_config at hok
      cases hv : cfg.validate with
      | error e =>
        rw [hv] at hok
        simp at hok
      | ok u =>
        cases u
        rw [hv] at hok
        simp at hok
        exact ⟨rfl, hok.symm⟩
    obtain ⟨hv, rfl⟩ := hval
    have hspar : cfg.sparse_index_sparsity ≠ 0 := by
      unfold TreeConfig.validate at hv
      split_ifs at hv with h1 h2
      exact h1
    refine ⟨by simp, rfl, ?_, ?_, hspar⟩
    · show ([] : List Node) = buildAll h []
      rw [buildAll, allLevels, dif_neg (by simp)]
      rfl
    · rfl
  | insert_ok tr tr' data ts hr hok ih =>
    obtain ⟨entries, hc⟩ := ih
    cases hval : tr.validate_insert_inputs data ts now with
    | error e =>
      unfold Tree.insert at hok
      rw [hval] at hok
      simp at hok
    | ok u =>
      cases u
      have hv := (validate_insert_inputs_iff tr data ts now).mp hval
      obtain ⟨tr'', heq, hc', _⟩ :=
        insert_preserves_canonical h now tr entries data ts hc hv
      rw [heq] at hok
      have : tr'' = tr' := by
        have := congrArg Prod.fst hok
        exact this
      exact ⟨entries ++ [(data, ts)], this ▸ hc'⟩
  | rollback_ok tr tr' target hr hok ih =>
    obtain ⟨entries, hc⟩ := ih
    obtain ⟨hc', _, _⟩ :=
      rollback_preserves_canonical h now tr tr' entries target hc hok
    exact ⟨entries.filter (fun e => decide (e.2 ≤ target)), hc'⟩
  | prune tr t hr ih =>
    obtain ⟨entries, hc⟩ := ih
    exact ⟨entries, hc⟩

theorem verifyDeltaLoop_eq (h : Hasher) (new_root : Digest) :
    ∀ (chain : List Node) (current : Digest),
      verifyDeltaLoop h new_root chain current =
        .ok (decide (chain_replays h new_root chain current = some new_root))
  | [], current => by
    simp [verifyDeltaLoop, chain_replays]
  | n :: rest, current => by
    cases n with
    | delta dh bh ts =>
      show (if dh ≠ h.hash_pair bh new_root then Except.ok false
          else verifyDeltaLoop h new_root rest new_root) = _
      by_cases hd : dh = h.hash_pair bh new_root
      · rw [if_neg (by simpa using hd)]
        rw [verifyDeltaLoop_eq h new_root rest new_root]
        show _ = Except.ok (decide ((if dh = h.hash_pair bh new_root then
          chain_replays h new_root rest new_root else none) = some new_root))
        rw [if_pos hd]
      · rw [if_pos (by simpa using hd)]
        show _ = Except.ok (decide ((if dh = h.hash_pair bh new_root then
          chain_replays h new_root rest new_root else none) = some new_root))
        rw [if_neg hd]
        simp
    | leaf lh lt ld =>
      show verifyDeltaLoop h new_root rest current = _
      rw [verifyDeltaLoop_eq h new_root rest current]
      rfl
    | internal ih il ir irg =>
      show verifyDeltaLoop h new_root rest current = _
      rw [verifyDeltaLoop_eq h new_root rest current]
      rfl

/-- The outcome of `insert` is decided entirely by input validation. -/
theorem insert_snd (h : Hasher) (now : Nat) (tr : Tree) (data : List Nat)
    (ts : Nat) :
    (tr.insert h now data ts).2 =
      match tr.validate_insert_inputs data ts now with
      | .ok _ => none
      | .error e => some e := by
  unfold Tree.insert
  cases hval : tr.validate_insert_inputs data ts now <;> simp

/-- A failed validation returns the error and the unchanged tree. -/
theorem insert_error (h : Hasher) (now : Nat) (tr : Tree) (data : List Nat)
    (ts e : _) (he : tr.validate_insert_inputs data ts now = .error e) :
    tr.insert h now data ts = (tr, some e) := by
  unfold Tree.insert
  rw [he]

theorem foldl_eraseIdx_sublist :
    ∀ (idxs : List Nat) (l : List Node),
      (idxs.foldl List.eraseIdx l).Sublist l
  | [], l => List.Sublist.refl l
  | i :: rest, l => by
    simp only [List.foldl_cons]
    exact (foldl_eraseIdx_sublist rest (l.eraseIdx i)).trans
      (List.eraseIdx_sublist l i)

/-- A fresh build over valid entries lands on the canonical state. -/
theorem insertAll_canonical (h : Hasher) (now : Nat) :
    ∀ (more : List (List Nat × Nat)) (tr : Tree) (entries : List (List Nat × Nat)),
      CanonicalEntries h now tr entries → (∀ e ∈ more, validEntry now e) →
      ∃ trf, insertAll h now tr more = (trf, true) ∧
        CanonicalEntries h now trf (entries ++ more) ∧ trf.config = tr.config
  | [], tr, entries, hc, _ => ⟨tr, rfl, by simpa using hc, rfl⟩
  | e :: rest, tr, entries, hc, hv => by
    obtain ⟨tr1, heq, hc1, hcfg1⟩ :=
      insert_preserves_canonical h now tr entries e.1 e.2 hc
        (hv e (List.mem_cons_self e rest))
    obtain ⟨trf, heq2, hc2, hcfg2⟩ :=
      insertAll_canonical h now rest tr1 (entries ++ [(e.1, e.2)]) hc1
        (fun x hx => hv x (List.mem_cons_of_mem e hx))
    refine ⟨trf, ?_, ?_, hcfg2.trans hcfg1⟩
    · show (match Tree.insert h now tr e.1 e.2 with
        | (tr', none) => insertAll h now tr' rest
        | (tr', some _) => (tr', false)) = (trf, true)
      rw [heq]
      exact heq2
    · have hre : entries ++ [(e.1, e.2)] ++ rest = entries ++ e :: rest := by
        simp
      rw [← hre]
      exact hc2

theorem scan_filterMap_eq_idxScan (p : Nat → Prop) [DecidablePred p] (h : Hasher) :
    ∀ (entries : List (List Nat × Nat)) (k : Nat),
      (List.enumFrom k (entries.map (mkLeafNode h))).filterMap (fun q =>
        match q.2 with
        | NodeType.leaf _ ts _ => if p ts then some q.1 else none
        | _ => none)
      = idxScan p entries k
  | [], _ => rfl
  | e :: rest, k => by
    simp only [List.map_cons, List.enumFrom_cons]
    rw [idxScan]
    by_cases hp : p e.2
    · have hsome : (match (k, mkLeafNode h e).2 with
          | NodeType.leaf _ ts _ => if p ts then some (k, mkLeafNode h e).1 else none
          | _ => none) = some k := by
        show (if p e.2 then some k else none) = some k
        rw [if_pos hp]
      rw [if_pos hp, List.filterMap_cons, hsome]
      exact congrArg (fun l => k :: l) (scan_filterMap_eq_idxScan p h rest (k + 1))
    · have hnone : (match (k, mkLeafNode h e).2 with
          | NodeType.leaf _ ts _ => if p ts then some (k, mkLeafNode h e).1 else none
          | _ => none) = none := by
        show (if p e.2 then some k else none) = none
        rw [if_neg hp]
      rw [if_neg hp, List.filterMap_cons, hnone]
      exact scan_filterMap_eq_idxScan p h rest (k + 1)

theorem idxScan_eq_range_filter (p : Nat → Prop) [DecidablePred p] :
    ∀ (entries : List (List Nat × Nat)) (k : Nat),
      idxScan p entries k = ((List.range entries.length).filter
        (fun i => decide (p (entries.getD i ([], 0)).2))).map (fun i => i + k)
  | [], _ => rfl
  | e :: rest, k => by
    rw [idxScan, idxScan_eq_range_filter p rest (k + 1), List.length_cons,
      List.range_succ_eq_map]
    have hqsucc : ((List.range rest.length).map Nat.succ).filter
        (fun i => decide (p (((e :: rest).getD i ([], 0)).2)))
        = ((List.range rest.length).filter
            (fun i => decide (p ((rest.getD i ([], 0)).2)))).map Nat.succ := by
      rw [List.map_filter]
      refine congrArg _ (List.filter_congr ?_)
      intro i _
      simp [Function.comp]
    have hshift : (((List.range rest.length).filter
        (fun i => decide (p ((rest.getD i ([], 0)).2)))).map Nat.succ).map
          (fun i => i + k)
        = ((List.range rest.length).filter
            (fun i => decide (p ((rest.getD i ([], 0)).2)))).map
          (fun i => i + (k + 1)) := by
      rw [List.map_map]
      refine List.map_congr_left ?_
      intro i _
      simp [Function.comp]
      omega
    by_cases hp : p e.2
    · rw [if_pos hp, List.filter_cons_of_pos (by simpa using hp), List.map_cons,
        hqsucc, hshift]
      congr 1
      omega
    · rw [if_neg hp, List.filter_cons_of_neg (by simpa using hp), hqsucc, hshift]

theorem mergeSort_self_of_sorted (l : List Nat) (hs : l.Pairwise (· ≤ ·)) :
    l.mergeSort (fun a b => a ≤ b) = l := by
  refine List.eq_of_perm_of_sorted (List.mergeSort_perm l _) ?_ hs
  have := @List.sorted_mergeSort Nat (fun a b : Nat => decide (a ≤ b))
    (fun a b c hab hbc => by
      simp only [decide_eq_true_eq] at hab hbc ⊢
      omega)
    (fun a b => by
      simp only [decide_eq_true_eq, Bool.or_eq_true]
      omega)
    l
  refine this.imp ?_
  intro a b hab
  simpa using hab
theorem take_leaf_count_canonical (h : Hasher) (now : Nat) (tr : Tree)
    (entries : List (List Nat × Nat))
    (hc : CanonicalEntries h now tr entries) :
    tr.nodes.take tr.leaf_count = entries.map (mkLeafNode h) := by
  obtain ⟨_, hlc, hnodes, _, _⟩ := hc
  rw [hnodes, hlc, buildAll]
  rw [show entries.length = (entries.map (mkLeafNode h)).length by
    rw [List.length_map]]
  exact List.take_left _ _

theorem getD_node_canonical (h : Hasher) (now : Nat) (tr : Tree)
    (entries : List (List Nat × Nat))
    (hc : CanonicalEntries h now tr entries) (k : Nat) (hk : k < entries.length) :
    tr.nodes.getD k defaultNode = mkLeafNode h (entries.getD k ([], 0)) := by
  obtain ⟨_, hlc, hnodes, _, _⟩ := hc
  rw [hnodes, buildAll, getD_append_left _ _ _ _ (by rw [List.length_map]; exact hk),
    getD_map _ _ _ _ ([], 0) hk]

theorem find_by_timestamp_canonical (h : Hasher) (now : Nat) (tr : Tree)
    (entries : List (List Nat × Nat))
    (hc : CanonicalEntries h now tr entries) (t : Nat) :
    tr.find_by_timestamp t = specFindByTag tr t := by
  have hlc := hc.2.1
  have htake := take_leaf_count_canonical h now tr entries hc
  unfold Tree.find_by_timestamp specFindByTag
  rw [htake]
  have h1 := scan_filterMap_eq_idxScan (fun ts => ts = t) h entries 0
  have h2 := idxScan_eq_range_filter (fun ts => ts = t) entries 0
  have h3 : ((List.range entries.length).filter
      (fun i => decide ((entries.getD i ([], 0)).2 = t))).map (fun i => i + 0)
      = (List.range entries.length).filter
        (fun i => decide ((entries.getD i ([], 0)).2 = t)) := by
    simp
  have h4 : (List.range tr.leaf_count).filter (fun k =>
      decide ((tr.nodes.getD k defaultNode).timestamp_info.1 = t))
      = (List.range entries.length).filter
        (fun i => decide ((entries.getD i ([], 0)).2 = t)) := by
    rw [hlc]
    refine List.filter_congr ?_
    intro i hi
    rw [getD_node_canonical h now tr entries hc i (List.mem_range.mp hi)]
    rfl
  rw [h4, ← h3, ← h2, ← h1]
  rfl

theorem find_range_canonical (h : Hasher) (now : Nat) (tr : Tree)
    (entries : List (List Nat × Nat))
    (hc : CanonicalEntries h now tr entries) (lo hi : Nat) :
    tr.find_range lo hi = specFindRange tr lo hi := by
  have hlc := hc.2.1
  have htake := take_leaf_count_canonical h now tr entries hc
  unfold Tree.find_range specFindRange
  rw [htake]
  have h1 := scan_filterMap_eq_idxScan (fun ts => lo ≤ ts ∧ ts ≤ hi) h entries 0
  have h2 := idxScan_eq_range_filter (fun ts => lo ≤ ts ∧ ts ≤ hi) entries 0
  have h3 : ((List.range entries.length).filter
      (fun i => decide (lo ≤ (entries.getD i ([], 0)).2 ∧
        (entries.getD i ([], 0)).2 ≤ hi))).map (fun i => i + 0)
      = (List.range entries.length).filter
        (fun i => decide (lo ≤ (entries.getD i ([], 0)).2 ∧
          (entries.getD i ([], 0)).2 ≤ hi)) := by
    simp
  have h4 : (List.range tr.leaf_count).filter (fun k =>
      decide (lo ≤ (tr.nodes.getD k defaultNode).timestamp_info.1 ∧
        (tr.nodes.getD k defaultNode).timestamp_info.1 ≤ hi))
      = (List.range entries.length).filter
        (fun i => decide (lo ≤ (entries.getD i ([], 0)).2 ∧
          (entries.getD i ([], 0)).2 ≤ hi)) := by
    rw [hlc]
    refine List.filter_congr ?_
    intro i hi2
    rw [getD_node_canonical h now tr entries hc i (List.mem_range.mp hi2)]
    rfl
  have hscan : (List.enum (entries.map (mkLeafNode h))).filterMap (fun q =>
      match q.2 with
      | NodeType.leaf _ ts _ => if lo ≤ ts ∧ ts ≤ hi then some q.1 else none
      | _ => none)
      = (List.range tr.leaf_count).filter (fun k =>
        decide (lo ≤ (tr.nodes.getD k defaultNode).timestamp_info.1 ∧
          (tr.nodes.getD k defaultNode).timestamp_info.1 ≤ hi)) := by
    rw [h4, ← h3, ← h2, ← h1]
    rfl
  rw [hscan]
  refine mergeSort_self_of_sorted _ ?_
  have hp := List.pairwise_lt_range tr.leaf_count
  exact ((hp.sublist (List.filter_sublist _)).imp (fun hab => Nat.le_of_lt hab))
theorem root_canonical (h : Hasher) (now : Nat) (tr : Tree)
    (entries : List (List Nat × Nat))
    (hc : CanonicalEntries h now tr entries) (hne : entries ≠ []) :
    tr.root = some (topHash h ((entries.map (mkLeafNode h)).map Node.hash)) := by
  obtain ⟨_, _, hnodes, _, _⟩ := hc
  unfold Tree.root
  rw [hnodes]
  exact getLast_buildAll h _ (by simpa using hne)

theorem verify_left_right_path (h : Hasher) (tr : Tree) (proof : ChronoProof)
    (root_hash leaf_hash : Digest)
    (hroot : tr.root = some root_hash)
    (hidx : proof.leaf_index < tr.leaf_count)
    (hlh : tr.get_leaf_hash proof.leaf_index = .ok leaf_hash)
    (hts : tr.get_leaf_timestamp proof.leaf_index = .ok proof.timestamp)
    (hsteps : verifySteps h proof.delta_chain proof.path leaf_hash 0 =
      .ok root_hash)
    (hprog : proof.programmable_results = []) :
    tr.verify_proof h proof = .ok true := by
  unfold Tree.verify_proof
  simp only [hroot, hlh, hts]
  rw [if_neg (by simp)]
  unfold verify_proof
  rw [hsteps]
  simp only [hprog]
  rw [if_neg (by simp), constant_time_eq_iff]
  simp

/-- Claim C1.  Proof round-trip: on every reachable non-empty tree, for
every in-bounds leaf index `k`, `generate_proof` succeeds and
tree-level `verify_proof` accepts the generated proof against the
current root, including the single-leaf case with an empty path. -/
theorem claim_C1_proof_roundtrip (h : Hasher) (now : Nat) (tr : Tree)
    (hr : Reachable h now tr) (k : Nat) (hk : k < tr.leaf_count) :
    ∃ proof, tr.generate_proof h k = .ok proof ∧
      tr.verify_proof h proof = .ok true := by
  obtain ⟨entries, hc⟩ := reachable_canonical h now tr hr
  have hlc := hc.2.1
  have hkE : k < entries.length := by omega
  have hne : entries ≠ [] := by
    intro hz
    rw [hz] at hkE
    simp at hkE
  have hleaf := getD_node_canonical h now tr entries hc k hkE
  have hroot := root_canonical h now tr entries hc hne
  have hlh : tr.get_leaf_hash k = .ok ((tr.nodes.getD k defaultNode).hash) := by
    unfold Tree.get_leaf_hash Tree.get_leaf
    rw [if_neg (by omega)]
    rfl
  have hts : tr.get_leaf_timestamp k =
      .ok ((tr.nodes.getD k defaultNode).timestamp_info.1) := by
    unfold Tree.get_leaf_timestamp Tree.get_leaf
    rw [if_neg (by omega)]
    rfl
  have hL0 : (List.range tr.leaf_count).map
      (fun i => (tr.nodes.getD i defaultNode).hash)
      = (entries.map (mkLeafNode h)).map Node.hash := by
    rw [hlc]
    have hcg : ∀ i ∈ List.range entries.length,
        (tr.nodes.getD i defaultNode).hash
          = (Node.hash ∘ mkLeafNode h) (entries.getD i ([], 0)) := by
      intro i hi
      rw [getD_node_canonical h now tr entries hc i (List.mem_range.mp hi)]
      rfl
    rw [List.map_congr_left hcg]
    calc List.map (fun a => (Node.hash ∘ mkLeafNode h) (entries.getD a ([], 0)))
          (List.range entries.length)
        = List.map (Node.hash ∘ mkLeafNode h)
            ((List.range entries.length).map (fun a => entries.getD a ([], 0))) :=
          (List.map_map (Node.hash ∘ mkLeafNode h)
            (fun a => entries.getD a ([], 0)) (List.range entries.length)).symm
      _ = List.map (Node.hash ∘ mkLeafNode h) entries := by
          rw [range_map_getD entries ([], 0)]
      _ = List.map Node.hash (List.map (mkLeafNode h) entries) := by
          rw [List.map_map]
  have hlhval : (tr.nodes.getD k defaultNode).hash
      = ((entries.map (mkLeafNode h)).map Node.hash).getD k [] := by
    rw [hleaf, getD_map _ _ _ _ defaultNode (by rw [List.length_map]; exact hkE),
      getD_map _ _ _ _ ([], 0) hkE]
  unfold Tree.generate_proof
  rw [if_neg (by omega)]
  by_cases h1 : tr.leaf_count = 1
  · rw [if_pos h1]
    refine ⟨_, rfl, ?_⟩
    refine verify_left_right_path h tr _ _ _ hroot (by simpa using hk) hlh hts ?_ rfl
    show Except.ok ((tr.nodes.getD k defaultNode).hash) = _
    rw [hlhval]
    have hlen1 : ((entries.map (mkLeafNode h)).map Node.hash).length = 1 := by
      simp only [List.length_map]
      omega
    rw [topHash, dif_neg (by omega)]
    have hk0 : k = 0 := by omega
    rw [hk0]
  · rw [if_neg h1]
    refine ⟨_, rfl, ?_⟩
    refine verify_left_right_path h tr _ _ _ hroot (by simpa using hk) hlh hts ?_ rfl
    show verifySteps h none (buildPath h ((List.range tr.leaf_count).map
      (fun i => (tr.nodes.getD i defaultNode).hash)) k)
      ((tr.nodes.getD k defaultNode).hash) 0 = _
    rw [hL0, hlhval]
    exact verifySteps_buildPath h none _ k
      (by rw [List.length_map, List.length_map]; exact hkE) 0

theorem demoT4_reachable : Reachable demoHasher 0 demoT4 :=
  .insert_ok demoT3 demoT4 [4] 9
    (.insert_ok demoT2 demoT3 [3] 7
      (.insert_ok demoT1 demoT2 [2] 20
        (.insert_ok demoT0 demoT1 [1] 5
          (.base demoConfig demoT0 (by rfl))
          (by decide))
        (by decide))
      (by decide))
    (by decide)

theorem demoT3_reachable : Reachable demoHasher 0 demoT3 :=
  .insert_ok demoT2 demoT3 [3] 7
    (.insert_ok demoT1 demoT2 [2] 20
      (.insert_ok demoT0 demoT1 [1] 5
        (.base demoConfig demoT0 (by rfl))
        (by decide))
      (by decide))
    (by decide)

theorem demoS3_reachable : Reachable demoHasher 0 demoS3 :=
  .insert_ok demoS2 demoS3 [3] 1005
    (.insert_ok demoS1 demoS2 [2] 1005
      (.insert_ok demoS0 demoS1 [1] 1000
        (.base demoConfigSparse demoS0 (by rfl))
        (by decide))
      (by decide))
    (by decide)
/-- Witness for C1: on the four-leaf demo tree, the proof generated for
leaf 1 verifies against the current root. -/
theorem claim_C1_witness :
    1 < demoT4.leaf_count ∧
    ∃ proof, demoT4.generate_proof demoHasher 1 = .ok proof ∧
      demoT4.verify_proof demoHasher proof = .ok true :=
  ⟨by decide,
   claim_C1_proof_roundtrip demoHasher 0 demoT4 demoT4_reachable 1 (by decide)⟩

/-- The leaf filter of `rollback_to_timestamp` on a canonical state
retains exactly the leaves of the early-enough entries. -/
theorem filter_keepLeaf_canonical (h : Hasher) (now : Nat) (tr : Tree)
    (entries : List (List Nat × Nat)) (target : Nat)
    (hc : CanonicalEntries h now tr entries) :
    tr.nodes.filter (keepLeaf target) =
      (entries.filter (fun e => decide (e.2 ≤ target))).map (mkLeafNode h) := by
  have hnodes := hc.2.2.1
  rw [hnodes, buildAll, List.filter_append]
  have hf2 : (allLevels h (entries.map (mkLeafNode h))).filter
      (keepLeaf target) = [] := by
    rw [List.filter_eq_nil]
    intro n hn
    have hint := (allLevels_is_internal h _ n hn).2
    cases n with
    | leaf _ _ _ => simp [Node.is_internal] at hint
    | delta _ _ _ => simp [Node.is_internal] at hint
    | internal _ _ _ _ => simp [keepLeaf]
  rw [hf2, List.append_nil, List.map_filter]
  rfl

/-- A freshly constructed tree is the canonical state over no entries. -/
theorem newTree_canonical (h : Hasher) (now : Nat) (cfg : TreeConfig)
    (hspar : cfg.sparse_index_sparsity ≠ 0) :
    CanonicalEntries h now (newTree cfg) [] := by
  refine ⟨by simp, rfl, ?_, rfl, hspar⟩
  show ([] : List Node) = buildAll h []
  rw [buildAll, allLevels, dif_neg (by simp)]
  rfl

/-! ### The claims -/

/-- Claim C4.  Tag-mismatch verification outcome: for every proof whose
leaf index is in bounds of a non-empty tree, a declared tag differing
from the actual leaf tag makes tree-level verification return
`Ok(false)` — never an error — regardless of the proof's sibling path. -/
theorem claim_C4_tag_mismatch (h : Hasher) (tr : Tree) (proof : ChronoProof)
    (r : Digest) (hroot : tr.root = some r)
    (hidx : proof.leaf_index < tr.leaf_count)
    (hts : proof.timestamp ≠
      (tr.nodes.getD proof.leaf_index defaultNode).timestamp_info.1) :
    tr.verify_proof h proof = .ok false := by
  have hlh : tr.get_leaf_hash proof.leaf_index =
      .ok ((tr.nodes.getD proof.leaf_index defaultNode).hash) := by
    unfold Tree.get_leaf_hash Tree.get_leaf
    rw [if_neg (by omega)]
    rfl
  have hgt : tr.get_leaf_timestamp proof.leaf_index =
      .ok ((tr.nodes.getD proof.leaf_index defaultNode).timestamp_info.1) := by
    unfold Tree.get_leaf_timestamp Tree.get_leaf
    rw [if_neg (by omega)]
    rfl
  unfold Tree.verify_proof
  simp only [hroot, hlh, hgt]
  rw [if_pos hts]

/-- Witness for C4: on the four-leaf demo tree, a proof for index 0 whose
declared tag is mutated to 9999 verifies to `Ok(false)`. -/
theorem claim_C4_witness :
    demoT4.verify_proof demoHasher
      { leaf_index := 0, path := [], delta_chain := none,
        programmable_results := [], timestamp := 9999 } = .ok false :=
  claim_C4_tag_mismatch demoHasher demoT4
    { leaf_index := 0, path := [], delta_chain := none,
      programmable_results := [], timestamp := 9999 }
    ((demoT4.root).getD []) (by decide) (by decide) (by decide)

/-- Claim C5.  Data-size validation is atomic: empty data or data larger
than 1 MiB makes `insert` fail with `InvalidConfiguration{parameter="data"}`
and leaves the tree unchanged; data of exactly 1 MiB passes the size
check (any remaining failure is a timestamp error). -/
theorem claim_C5_data_validation :
    (∀ (h : Hasher) (now : Nat) (tr : Tree) (data : List Nat) (ts : Nat),
      data = [] ∨ data.length > MAX_DATA_SIZE →
      ∃ reason, tr.insert h now data ts =
        (tr, some (.InvalidConfiguration "data" reason))) ∧
    (∀ (h : Hasher) (now : Nat) (tr : Tree) (data : List Nat) (ts : Nat),
      data.length = MAX_DATA_SIZE →
      (tr.insert h now data ts).2 = none ∨
        ∃ t0, (tr.insert h now data ts).2 = some (.InvalidTimestamp t0)) := by
  constructor
  · intro h now tr data ts hbad
    rcases hbad with rfl | hlen
    · exact ⟨"Empty data not allowed", insert_error h now tr [] ts _ rfl⟩
    · refine ⟨"Data size " ++ toString data.length ++
        " exceeds maximum allowed size " ++ toString MAX_DATA_SIZE, ?_⟩
      apply insert_error
      unfold Tree.validate_insert_inputs
      rw [if_pos hlen]
  · intro h now tr data ts hlen
    have hne : ¬ (data.isEmpty = true) := by
      rw [List.isEmpty_iff]
      intro hz
      rw [hz] at hlen
      simp [MAX_DATA_SIZE] at hlen
    rw [insert_snd]
    unfold Tree.validate_insert_inputs
    rw [if_neg (by omega), if_neg hne]
    simp only []
    by_cases h3 : ts > now + 365 * 24 * 60 * 60
    · rw [if_pos h3]
      exact Or.inr ⟨ts, rfl⟩
    · rw [if_neg h3]
      by_cases h4 : ts < now - 100 * 365 * 24 * 60 * 60
      · rw [if_pos h4]
        exact Or.inr ⟨ts, rfl⟩
      · rw [if_neg h4]
        exact Or.inl rfl

/-- Witness for C5: inserting empty data errors and leaves the demo tree
unchanged; data of exactly 1 MiB passes the data check. -/
theorem claim_C5_witness :
    (∃ reason, demoT1.insert demoHasher 0 [] 5 =
      (demoT1, some (.InvalidConfiguration "data" reason))) ∧
    ((demoT0.insert demoHasher 0 (List.replicate MAX_DATA_SIZE 1) 5).2 = none ∨
      ∃ t0, (demoT0.insert demoHasher 0 (List.replicate MAX_DATA_SIZE 1) 5).2 =
        some (.InvalidTimestamp t0)) :=
  ⟨claim_C5_data_validation.1 demoHasher 0 demoT1 [] 5 (Or.inl rfl),
   claim_C5_data_validation.2 demoHasher 0 demoT0
     (List.replicate MAX_DATA_SIZE 1) 5 (by simp)⟩

/-- Claim C6.  `verify_delta(old_root, new_root, chain)` returns `Ok` of
exactly the replay outcome: each delta node must commit
`hash_pair(its old root, new_root)` and advances the state to
`new_root`; a failing digest yields `Ok(false)`, never an error. -/
theorem claim_C6_verify_delta (h : Hasher) (old_root new_root : Digest)
    (chain : List Node) :
    verify_delta h old_root new_root chain =
      .ok (decide (chain_replays h new_root chain old_root = some new_root)) :=
  verifyDeltaLoop_eq h new_root chain old_root

/-- Claim C10.  An empty chain degenerates to a plain root-equality
check: `verify_delta(a, b, [])` is `Ok(true)` iff `a = b`, `Ok(false)`
otherwise, and never an error. -/
theorem claim_C10_empty_chain (h : Hasher) (a b : Digest) :
    verify_delta h a b [] = .ok (decide (a = b)) := rfl

/-- Claim C7 (amended).  `max_depth` is validated at construction to lie
in `1..=64`; however the insert path never rejects on depth grounds: the
outcome of `insert` is exactly the outcome of input validation, which
reads only the data, the timestamp and the wall clock — never the leaf
count or `max_depth`. -/
theorem claim_C7_depth_cap_amended :
    (∀ cfg : TreeConfig, cfg.validate = .ok () ↔
      (cfg.sparse_index_sparsity ≠ 0 ∧ 1 ≤ cfg.max_depth ∧ cfg.max_depth ≤ 64)) ∧
    (∀ (h : Hasher) (now : Nat) (tr : Tree) (data : List Nat) (ts : Nat),
      (tr.insert h now data ts).2 =
        match tr.validate_insert_inputs data ts now with
        | .ok _ => none
        | .error e => some e) ∧
    (∀ (tr₁ tr₂ : Tree) (data : List Nat) (ts now : Nat),
      tr₁.validate_insert_inputs data ts now =
        tr₂.validate_insert_inputs data ts now) := by
  refine ⟨?_, fun h now tr data ts => insert_snd h now tr data ts,
    fun tr₁ tr₂ data ts now => rfl⟩
  intro cfg
  unfold TreeConfig.validate
  constructor
  · intro hok
    split_ifs at hok with h1 h2
    push_neg at h2
    exact ⟨h1, by omega, by omega⟩
  · rintro ⟨h1, h2, h3⟩
    rw [if_neg h1, if_neg (by omega)]

/-- Counterexample to C7 as stated: with the valid configuration
`max_depth = 1`, three inserts all succeed, leaving `leaf_count = 3`,
which exceeds `2 ^ max_depth = 2` — no insert is rejected on depth
grounds. -/
theorem claim_C7_counterexample :
    demoConfigDepth1.validate = .ok () ∧
    demoConfigDepth1.max_depth = 1 ∧
    (insertAll demoHasher 0 (newTree demoConfigDepth1)
      [([1], 1), ([2], 2), ([3], 3)]).2 = true ∧
    (insertAll demoHasher 0 (newTree demoConfigDepth1)
      [([1], 1), ([2], 2), ([3], 3)]).1.leaf_count = 3 ∧
    2 ^ demoConfigDepth1.max_depth < 3 :=
  ⟨rfl, rfl, by decide, by decide, by decide⟩
/-- Claim C3 (amended).  Delta lifecycle: a successful `insert` with
deltas enabled appends exactly one delta node — committing
`hash_pair(old_root, new_root)` and carrying the old root and the new
tag — but only when the tree already had a root and the root changed
(in particular the very first insert, whose pre-state root is `None`,
appends nothing); when deltas are disabled, the root was absent, or the
root is unchanged, the delta log is untouched; `rollback_to_timestamp`
and `prune_deltas` only ever remove stored deltas (sublist). -/
theorem claim_C3_delta_lifecycle_amended :
    (∀ (h : Hasher) (now : Nat) (tr tr' : Tree) (data : List Nat) (ts : Nat),
      tr.insert h now data ts = (tr', none) →
      tr.config.enable_deltas = true →
      ∀ r0 r1, tr.root = some r0 → tr'.root = some r1 → r0 ≠ r1 →
        tr'.stored_deltas =
          tr.stored_deltas ++ [Node.delta (h.hash_pair r0 r1) r0 ts]) ∧
    (∀ (h : Hasher) (now : Nat) (tr tr' : Tree) (data : List Nat) (ts : Nat),
      tr.insert h now data ts = (tr', none) →
      (tr.config.enable_deltas = false ∨ tr.root = none ∨ tr'.root = tr.root) →
      tr'.stored_deltas = tr.stored_deltas) ∧
    (∀ (h : Hasher) (tr : Tree) (target : Nat),
      ((tr.rollback_to_timestamp h target).1.stored_deltas).Sublist
        tr.stored_deltas) ∧
    (∀ (tr : Tree) (t : Nat),
      ((tr.prune_deltas t).stored_deltas).Sublist tr.stored_deltas) := by
  refine ⟨?_, ?_, ?_, ?_⟩
  · intro h now tr tr' data ts hok hen r0 r1 hr0 hr1 hne
    cases hval : tr.validate_insert_inputs data ts now with
    | error e =>
      rw [insert_error h now tr data ts e hval] at hok
      exact absurd (congrArg Prod.snd hok) (by simp)
    | ok u =>
      cases u
      rw [insert_ok_form h now tr data ts hval] at hok
      have htr' : tr' =
          delta_stage h ts tr.root (rebuild_tree h (pushLeaf h tr data ts)) :=
        (congrArg Prod.fst hok).symm
      subst htr'
      have ht3cfg : (rebuild_tree h (pushLeaf h tr data ts)).config = tr.config := by
        rw [rebuild_tree_config]
        rfl
      have ht3sd : (rebuild_tree h (pushLeaf h tr data ts)).stored_deltas =
          tr.stored_deltas := by
        rw [rebuild_tree_stored_deltas]
        rfl
      rw [(delta_stage_invariants h ts tr.root
        (rebuild_tree h (pushLeaf h tr data ts))).2.2.2.2] at hr1
      rcases delta_stage_deltas h ts tr.root
          (rebuild_tree h (pushLeaf h tr data ts)) with
        ⟨_, r0', r1', heq0, heq1, _, hds⟩ | ⟨hcond, hds⟩
      · have e0 : r0' = r0 := by
          rw [heq0] at hr0
          exact Option.some.inj hr0
        have e1 : r1' = r1 := by
          rw [heq1] at hr1
          exact Option.some.inj hr1
        rw [hds, ht3sd, e0, e1]
      · rcases hcond with hfalse | hnone0 | hnone1 | ⟨r, he0, he1⟩
        · rw [ht3cfg, hen] at hfalse
          exact absurd hfalse (by simp)
        · rw [hnone0] at hr0
          exact absurd hr0 (by simp)
        · rw [hnone1] at hr1
          exact absurd hr1 (by simp)
        · rw [he0] at hr0
          rw [he1] at hr1
          exact absurd ((Option.some.inj hr0).symm.trans
            (Option.some.inj hr1)) hne
  · intro h now tr tr' data ts hok hcase
    cases hval : tr.validate_insert_inputs data ts now with
    | error e =>
      rw [insert_error h now tr data ts e hval] at hok
      exact absurd (congrArg Prod.snd hok) (by simp)
    | ok u =>
      cases u
      rw [insert_ok_form h now tr data ts hval] at hok
      have htr' : tr' =
          delta_stage h ts tr.root (rebuild_tree h (pushLeaf h tr data ts)) :=
        (congrArg Prod.fst hok).symm
      subst htr'
      have ht3cfg : (rebuild_tree h (pushLeaf h tr data ts)).config = tr.config := by
        rw [rebuild_tree_config]
        rfl
      have ht3sd : (rebuild_tree h (pushLeaf h tr data ts)).stored_deltas =
          tr.stored_deltas := by
        rw [rebuild_tree_stored_deltas]
        rfl
      have hroot' := (delta_stage_invariants h ts tr.root
        (rebuild_tree h (pushLeaf h tr data ts))).2.2.2.2
      rcases delta_stage_deltas h ts tr.root
          (rebuild_tree h (pushLeaf h tr data ts)) with
        ⟨hen', r0', r1', heq0, heq1, hne', _⟩ | ⟨_, hds⟩
      · rcases hcase with hfalse | hnone0 | hsame
        · rw [ht3cfg, hfalse] at hen'
          exact absurd hen' (by simp)
        · rw [hnone0] at heq0
          exact absurd heq0 (by simp)
        · rw [hroot', heq1, heq0] at hsame
          exact absurd (Option.some.inj hsame).symm hne'
      · rw [hds, ht3sd]
  · intro h tr target
    by_cases h0 : tr.leaf_count = 0
    · unfold Tree.rollback_to_timestamp
      rw [if_pos h0]
    · by_cases hemp : tr.nodes.filter (keepLeaf target) = []
      · unfold Tree.rollback_to_timestamp
        rw [if_neg h0]
        simp only []
        rw [if_pos (by simp only [List.isEmpty_iff]; exact hemp)]
      · rw [rollback_ok_cases h tr target h0 hemp]
        exact List.filter_sublist _
  · intro tr t
    show ((((tr.stored_deltas.enum).filterMap (fun p =>
      match p.2 with
      | NodeType.delta _ _ ts =>
        if ts < t then some p.1 else none
      | _ => none)).reverse.foldl List.eraseIdx tr.stored_deltas)).Sublist
        tr.stored_deltas
    exact foldl_eraseIdx_sublist _ _

/-- Counterexample to C3 as stated ("whenever the root changes"): the
first insert into an empty tree with deltas enabled succeeds and changes
the root from `None` to `Some`, yet appends no delta node. -/
theorem claim_C3_counterexample :
    demoT0.config.enable_deltas = true ∧
    demoT0.insert demoHasher 0 [1] 5 = (demoT1, none) ∧
    demoT0.root ≠ demoT1.root ∧
    demoT1.stored_deltas = [] :=
  ⟨rfl, by decide, by decide, by decide⟩

/-- Witness for C3: the second insert into the demo tree changes the
root with deltas enabled, and the delta log gains exactly the predicted
node. -/
theorem claim_C3_witness :
    demoT1.insert demoHasher 0 [2] 20 = (demoT2, none) ∧
    demoT1.config.enable_deltas = true ∧
    demoT1.root = some ((demoT1.root).getD []) ∧
    demoT2.root = some ((demoT2.root).getD []) ∧
    (demoT1.root).getD [] ≠ (demoT2.root).getD [] ∧
    demoT2.stored_deltas = demoT1.stored_deltas ++
      [Node.delta (demoHasher.hash_pair ((demoT1.root).getD [])
        ((demoT2.root).getD [])) ((demoT1.root).getD []) 20] :=
  ⟨by decide, rfl, by decide, by decide, by decide,
   claim_C3_delta_lifecycle_amended.1 demoHasher 0 demoT1 demoT2 [2] 20
     (by decide) rfl ((demoT1.root).getD []) ((demoT2.root).getD [])
     (by decide) (by decide) (by decide)⟩
/-- Claim C8.  On every reachable tree state, `find_by_timestamp t`
returns exactly the ascending list of leaf indices whose tag equals `t`
(duplicates each reported), and `find_range lo hi` the ascending list of
leaf indices with tag in `[lo, hi]`; both results are strictly sorted.
The scans read only `nodes[..leaf_count]`, never the sparse index, so
the sparsity setting cannot affect them. -/
theorem claim_C8_timestamp_queries (h : Hasher) (now : Nat) (tr : Tree)
    (hr : Reachable h now tr) :
    (∀ t, tr.find_by_timestamp t = specFindByTag tr t) ∧
    (∀ lo hi, tr.find_range lo hi = specFindRange tr lo hi) ∧
    (∀ t, (tr.find_by_timestamp t).Pairwise (fun a b => a < b)) ∧
    (∀ lo hi, (tr.find_range lo hi).Pairwise (fun a b => a < b)) := by
  obtain ⟨entries, hc⟩ := reachable_canonical h now tr hr
  refine ⟨fun t => find_by_timestamp_canonical h now tr entries hc t,
    fun lo hi => find_range_canonical h now tr entries hc lo hi, ?_, ?_⟩
  · intro t
    rw [find_by_timestamp_canonical h now tr entries hc t]
    exact (List.pairwise_lt_range tr.leaf_count).sublist (List.filter_sublist _)
  · intro lo hi
    rw [find_range_canonical h now tr entries hc lo hi]
    exact (List.pairwise_lt_range tr.leaf_count).sublist (List.filter_sublist _)

/-- Witness for C8: on the sparsity-10 demo tree holding tags
1000, 1005, 1005, the exact query at 1005 and the range query over
[1000, 1005] match the specification scans; the duplicate tag reports
both indices. -/
theorem claim_C8_witness :
    demoS3.find_by_timestamp 1005 = specFindByTag demoS3 1005 ∧
    demoS3.find_range 1000 1005 = specFindRange demoS3 1000 1005 ∧
    demoS3.find_by_timestamp 1005 = [1, 2] :=
  ⟨(claim_C8_timestamp_queries demoHasher 0 demoS3 demoS3_reachable).1 1005,
   (claim_C8_timestamp_queries demoHasher 0 demoS3 demoS3_reachable).2.1
     1000 1005,
   by decide⟩

/-- Claim C9.  Node-vector layout on every reachable state: the first
`leaf_count` entries are exactly the leaf nodes, all remaining entries
are internal nodes, and the last node — when the tree is non-empty —
carries the root hash, the canonical fold of the leaf hashes; an empty
tree has no root.  The leaf prefix keeps original insertion order: a
successful `insert` extends it by exactly the new leaf at the end, a
successful `rollback_to_timestamp` replaces it by its order-preserving
filter, and `prune_deltas` leaves it unchanged — so by induction over
the operation history the prefix lists the surviving leaves in the
order they were inserted. -/
theorem claim_C9_node_layout (h : Hasher) (now : Nat) (tr : Tree)
    (hr : Reachable h now tr) :
    (∀ n ∈ tr.nodes.take tr.leaf_count, n.is_leaf = true) ∧
    (∀ n ∈ tr.nodes.drop tr.leaf_count, n.is_internal = true) ∧
    tr.nodes.filter Node.is_leaf = tr.nodes.take tr.leaf_count ∧
    (tr.root = none ↔ tr.leaf_count = 0) ∧
    (tr.leaf_count ≠ 0 →
      tr.root = some (topHash h
        ((tr.nodes.take tr.leaf_count).map Node.hash))) ∧
    (∀ (data : List Nat) (ts : Nat) (tr' : Tree),
      tr.insert h now data ts = (tr', none) →
      tr'.nodes.take tr'.leaf_count =
        tr.nodes.take tr.leaf_count ++
          [Node.leaf (h.hash data) ts (some data)]) ∧
    (∀ (target : Nat) (tr' : Tree),
      tr.rollback_to_timestamp h target = (tr', none) →
      tr'.nodes.take tr'.leaf_count =
        (tr.nodes.take tr.leaf_count).filter (keepLeaf target)) ∧
    (∀ t, (tr.prune_deltas t).nodes.take (tr.prune_deltas t).leaf_count =
      tr.nodes.take tr.leaf_count) := by
  obtain ⟨entries, hc⟩ := reachable_canonical h now tr hr
  have hlc := hc.2.1
  have hnodes := hc.2.2.1
  have htake := take_leaf_count_canonical h now tr entries hc
  have hdrop : tr.nodes.drop tr.leaf_count =
      allLevels h (entries.map (mkLeafNode h)) := by
    rw [hnodes, hlc, buildAll,
      show entries.length = (entries.map (mkLeafNode h)).length from
        (List.length_map _ _).symm]
    exact List.drop_left _ _
  refine ⟨?_, ?_, ?_, ?_, ?_, ?_, ?_, ?_⟩
  · intro n hn
    rw [htake] at hn
    rcases List.mem_map.mp hn with ⟨e, _, rfl⟩
    exact mkLeafNode_is_leaf h e
  · intro n hn
    rw [hdrop] at hn
    exact (allLevels_is_internal h _ n hn).2
  · have hf1 : (entries.map (mkLeafNode h)).filter Node.is_leaf =
        entries.map (mkLeafNode h) := by
      rw [List.filter_eq_self]
      intro n hn
      rcases List.mem_map.mp hn with ⟨e, _, rfl⟩
      exact mkLeafNode_is_leaf h e
    have hf2 : (allLevels h (entries.map (mkLeafNode h))).filter
        Node.is_leaf = [] := by
      rw [List.filter_eq_nil]
      intro n hn
      simp [(allLevels_is_internal h _ n hn).1]
    rw [htake, hnodes, buildAll, List.filter_append, hf1, hf2, List.append_nil]
  · constructor
    · intro hnone
      by_contra hlcne
      have hne : entries ≠ [] := by
        intro he
        rw [he] at hlc
        simp at hlc
        exact hlcne hlc
      rw [root_canonical h now tr entries hc hne] at hnone
      exact absurd hnone (by simp)
    · intro hlc0
      have he : entries = [] :=
        List.eq_nil_of_length_eq_zero ((hlc0.symm.trans hlc).symm)
      subst he
      unfold Tree.root
      rw [hnodes, buildAll, allLevels, dif_neg (by simp)]
      rfl
  · intro hlcne
    have hne : entries ≠ [] := by
      intro he
      rw [he] at hlc
      simp at hlc
      exact hlcne hlc
    rw [htake]
    exact root_canonical h now tr entries hc hne
  · intro data ts tr' hok
    have hvalE : validEntry now (data, ts) := by
      cases hval : tr.validate_insert_inputs data ts now with
      | error e =>
        rw [insert_error h now tr data ts e hval] at hok
        exact absurd (congrArg Prod.snd hok) (by simp)
      | ok u =>
        cases u
        exact (validate_insert_inputs_iff tr data ts now).mp hval
    obtain ⟨tr1, heq, hc1, _⟩ :=
      insert_preserves_canonical h now tr entries data ts hc hvalE
    have htr1 : tr1 = tr' := congrArg Prod.fst (heq.symm.trans hok)
    subst htr1
    rw [take_leaf_count_canonical h now tr1 (entries ++ [(data, ts)]) hc1,
      htake, List.map_append]
    rfl
  · intro target tr' hok
    obtain ⟨hc', _, _⟩ :=
      rollback_preserves_canonical h now tr tr' entries target hc hok
    rw [take_leaf_count_canonical h now tr' _ hc', htake, List.map_filter]
    rfl
  · intro t
    rfl

/-- Witness for C9: on the demo trees, the leaf prefix is exactly the
leaf filter, the root equals the canonical fold of the leaf hashes, and
the fourth insert extended the three-leaf prefix by exactly the new
leaf at the end, keeping insertion order. -/
theorem claim_C9_witness :
    demoT4.nodes.filter Node.is_leaf = demoT4.nodes.take demoT4.leaf_count ∧
    (demoT4.root = none ↔ demoT4.leaf_count = 0) ∧
    demoT4.root = some (topHash demoHasher
      ((demoT4.nodes.take demoT4.leaf_count).map Node.hash)) ∧
    demoT4.nodes.take demoT4.leaf_count =
      demoT3.nodes.take demoT3.leaf_count ++
        [Node.leaf (demoHasher.hash [4]) 9 (some [4])] :=
  ⟨(claim_C9_node_layout demoHasher 0 demoT4 demoT4_reachable).2.2.1,
   (claim_C9_node_layout demoHasher 0 demoT4 demoT4_reachable).2.2.2.1,
   (claim_C9_node_layout demoHasher 0 demoT4 demoT4_reachable).2.2.2.2.1
     (by decide),
   (claim_C9_node_layout demoHasher 0 demoT3 demoT3_reachable).2.2.2.2.2.1
     [4] 9 demoT4 (by decide)⟩
/-- Claim C2 (amended).  `rollback_to_timestamp(t)` on a reachable
state: if some stored leaf has tag ≤ t, it succeeds and its node vector,
leaf count and sparse index equal those of a fresh tree (same
configuration) into which only the retained leaves were re-inserted in
order — but its delta log is the original log truncated to deltas tagged
≤ t, not the fresh build's; if no leaf qualifies (in particular on an
empty tree), it returns `InvalidTimestamp` and changes nothing. -/
theorem claim_C2_rollback_amended (h : Hasher) (now : Nat) (tr : Tree)
    (hr : Reachable h now tr) (target : Nat) :
    ((∃ n ∈ tr.nodes, keepLeaf target n = true) →
      ∃ tr' trf,
        tr.rollback_to_timestamp h target = (tr', none) ∧
        insertAll h now (newTree tr.config)
          ((tr.nodes.filter (keepLeaf target)).map
            (fun n => (n.leaf_data.getD [], n.timestamp_info.1))) =
          (trf, true) ∧
        tr'.nodes = trf.nodes ∧
        tr'.leaf_count = trf.leaf_count ∧
        tr'.sparse_index = trf.sparse_index ∧
        tr'.config = tr.config ∧
        tr'.stored_deltas = tr.stored_deltas.filter (keepDelta target)) ∧
    ((∀ n ∈ tr.nodes, keepLeaf target n = false) →
      tr.rollback_to_timestamp h target =
        (tr, some (.InvalidTimestamp target))) := by
  obtain ⟨entries, hc⟩ := reachable_canonical h now tr hr
  have hval := hc.1
  have hlc := hc.2.1
  have hspar := hc.2.2.2.2
  constructor
  · rintro ⟨n, hn, hkn⟩
    have hnfil : n ∈ tr.nodes.filter (keepLeaf target) :=
      List.mem_filter.mpr ⟨hn, hkn⟩
    have hne : tr.nodes.filter (keepLeaf target) ≠ [] :=
      List.ne_nil_of_mem hnfil
    have hEne : entries.filter (fun e => decide (e.2 ≤ target)) ≠ [] := by
      intro hz
      rw [filter_keepLeaf_canonical h now tr entries target hc, hz] at hne
      exact hne rfl
    have hlz : tr.leaf_count ≠ 0 := by
      intro h0
      have he : entries = [] :=
        List.eq_nil_of_length_eq_zero ((h0.symm.trans hlc).symm)
      rw [he] at hEne
      exact hEne rfl
    obtain ⟨tr', hok2⟩ : ∃ tr',
        tr.rollback_to_timestamp h target = (tr', none) :=
      ⟨_, rollback_ok_cases h tr target hlz hne⟩
    obtain ⟨hc', hcfg', hsd'⟩ :=
      rollback_preserves_canonical h now tr tr' entries target hc hok2
    have hEval : ∀ e ∈ entries.filter (fun e => decide (e.2 ≤ target)),
        validEntry now e :=
      fun e he => hval e (List.mem_of_mem_filter he)
    obtain ⟨trf, heqf, hcf, hcfgf⟩ := insertAll_canonical h now
      (entries.filter (fun e => decide (e.2 ≤ target))) (newTree tr.config) []
      (newTree_canonical h now tr.config hspar) hEval
    rw [List.nil_append] at hcf
    have hpairs : (tr.nodes.filter (keepLeaf target)).map
        (fun n => (n.leaf_data.getD [], n.timestamp_info.1)) =
        entries.filter (fun e => decide (e.2 ≤ target)) := by
      rw [filter_keepLeaf_canonical h now tr entries target hc, List.map_map]
      have hid : ∀ e ∈ entries.filter (fun e => decide (e.2 ≤ target)),
          ((fun n : Node => (n.leaf_data.getD [], n.timestamp_info.1)) ∘
            mkLeafNode h) e = id e :=
        fun e _ => rfl
      rw [List.map_congr_left hid, List.map_id]
    refine ⟨tr', trf, hok2, ?_, ?_, ?_, ?_, hcfg', hsd'⟩
    · rw [hpairs]
      exact heqf
    · rw [hc'.2.2.1, hcf.2.2.1]
    · rw [hc'.2.1, hcf.2.1]
    · rw [hc'.2.2.2.1, hcf.2.2.2.1, hcfg', hcfgf]
      rfl
  · intro hall
    have hfil : tr.nodes.filter (keepLeaf target) = [] := by
      rw [List.filter_eq_nil]
      intro n hn
      simp [hall n hn]
    unfold Tree.rollback_to_timestamp
    by_cases h0 : tr.leaf_count = 0
    · rw [if_pos h0]
    · rw [if_neg h0]
      simp only []
      rw [if_pos (by simp only [List.isEmpty_iff]; exact hfil)]

/-- Counterexample to C2 as stated ("exact state it would have had"):
rolling the three-leaf demo tree (tags 5, 20, 7, deltas enabled) back to
10 agrees with the fresh build over the retained entries on nodes, leaf
count and sparse index, but its delta log is the truncated original,
which differs from the fresh build's delta log. -/
theorem claim_C2_counterexample :
    (demoT3.rollback_to_timestamp demoHasher 10).2 = none ∧
    (demoT3.rollback_to_timestamp demoHasher 10).1.nodes =
      (insertAll demoHasher 0 (newTree demoConfig)
        [([1], 5), ([3], 7)]).1.nodes ∧
    (demoT3.rollback_to_timestamp demoHasher 10).1.sparse_index =
      (insertAll demoHasher 0 (newTree demoConfig)
        [([1], 5), ([3], 7)]).1.sparse_index ∧
    (demoT3.rollback_to_timestamp demoHasher 10).1.stored_deltas ≠
      (insertAll demoHasher 0 (newTree demoConfig)
        [([1], 5), ([3], 7)]).1.stored_deltas :=
  ⟨by decide, by decide, by decide, by decide⟩

/-- Witness for C2: rolling the demo tree back to 10 (two of its three
leaves qualify) lands on the fresh-build node vector, leaf count and
sparse index, with the truncated original delta log. -/
theorem claim_C2_witness :
    (∃ n ∈ demoT3.nodes, keepLeaf 10 n = true) ∧
    (∃ tr' trf,
      demoT3.rollback_to_timestamp demoHasher 10 = (tr', none) ∧
      insertAll demoHasher 0 (newTree demoT3.config)
        ((demoT3.nodes.filter (keepLeaf 10)).map
          (fun n => (n.leaf_data.getD [], n.timestamp_info.1))) =
        (trf, true) ∧
      tr'.nodes = trf.nodes ∧
      tr'.leaf_count = trf.leaf_count ∧
      tr'.sparse_index = trf.sparse_index ∧
      tr'.config = demoT3.config ∧
      tr'.stored_deltas = demoT3.stored_deltas.filter (keepDelta 10)) :=
  ⟨by decide,
   (claim_C2_rollback_amended demoHasher 0 demoT3 demoT3_reachable 10).1
     (by decide)⟩

end ChronoMerkle
